import Mathlib

/-!
Verification development for the indexing and query engine of a desktop data
explorer.  The TypeScript sources (streaming indexer worker, record reader,
relational search layer, catalog/store, index coordinator) are shallowly
embedded: file contents are `List Char` (one `Char` per byte, the latin-1
reading; all concrete inputs are ASCII), byte offsets are `Nat`, fallible
host calls return `Except`/`Option`, and the `worker_threads`/`fs` layers are
modelled as explicit state.  Every definition mirrors its source function and
keeps its name where Lean allows.
-/

namespace BR

/-- The characters removed by JS `String.prototype.trim` that can occur in a
byte-per-char reading (ASCII whitespace). NUL (0x00) is *not* whitespace. -/
def isJsSpace (c : Char) : Bool :=
  c == ' ' || c == '\t' || c == '\n' || c == '\r' || c == '\x0b' || c == '\x0c'

/-- JS `s.trim()` on a byte list. -/
def jsTrim (l : List Char) : List Char :=
  ((l.dropWhile isJsSpace).reverse.dropWhile isJsSpace).reverse

/-- ASCII lowercasing of one character (JS `toLowerCase` on ASCII data). -/
def asciiLower (c : Char) : Char :=
  if 'A' ≤ c ∧ c ≤ 'Z' then Char.ofNat (c.toNat + 32) else c

/-- ASCII uppercasing of one character (JS `toUpperCase` on ASCII data). -/
def asciiUpper (c : Char) : Char :=
  if 'a' ≤ c ∧ c ≤ 'z' then Char.ofNat (c.toNat - 32) else c

def asciiLowerAll (l : List Char) : List Char := l.map asciiLower

def asciiUpperAll (l : List Char) : List Char := l.map asciiUpper

/-- Convenience: the byte list of a string literal. -/
def lc (s : String) : List Char := s.data

/-- Opening curly brace character (0x7B). -/
def braceOpen : Char := Char.ofNat 123

/-- Closing curly brace character (0x7D). -/
def braceClose : Char := Char.ofNat 125

/-- Index of the first occurrence of `c` (JS `indexOf`, `none` for -1). -/
def idxOfChar (c : Char) : List Char → Option Nat
  | [] => none
  | x :: rest => if x = c then some 0 else (idxOfChar c rest).map (· + 1)

/-- Number of occurrences of a character (JS `(s.match(/d/g) || []).length`
for a single, non-special character `d`). -/
def countChar (d : Char) (l : List Char) : Nat := (l.filter (· = d)).length

/-!
## CSV line scanner (`parseCSVLine`, indexer worker and record reader)

Both copies in the source (worker and `FileReader`) implement the identical
RFC-4180-style loop: `"` toggles the quoted state, `""` inside quotes yields a
literal quote, the delimiter outside quotes ends a field, fields are
`trim()`ed when pushed.
-/

def parseCSVLineAux (delim : Char) (l : List Char) (cur : List Char) (inQ : Bool) :
    List (List Char) :=
  match l, inQ with
  | [], _ => [jsTrim cur]
  | '"' :: '"' :: rest2, true => parseCSVLineAux delim rest2 (cur ++ ['"']) true
  | '"' :: rest, true => parseCSVLineAux delim rest cur false
  | '"' :: rest, false => parseCSVLineAux delim rest cur true
  | c :: rest, inQ =>
    if c = delim ∧ inQ = false then jsTrim cur :: parseCSVLineAux delim rest [] inQ
    else parseCSVLineAux delim rest (cur ++ [c]) inQ

def parseCSVLine (line : List Char) (delim : Char) : List (List Char) :=
  parseCSVLineAux delim line [] false

/-- `validateCSVLine` (indexer worker): a line is valid when its parsed field
count equals the header's and its double quotes are balanced.  The `issue`
message strings are not modelled; only the `valid` flag is. This function is
defined in the worker but never called by it. -/
def validateCSVLine (line : List Char) (delim : Char) (expectedColumns : Nat) : Bool :=
  (parseCSVLine line delim).length = expectedColumns ∧ countChar '"' line % 2 = 0

/-- `extractSearchFields` (indexer worker): first six values, `|` replaced by
a space.  The `headers` parameter is unused in the source as well. -/
def extractSearchFields (_headers : List (List Char)) (values : List (List Char)) :
    List (List Char) :=
  (values.take 6).map (fun v => v.map (fun c => if c = '|' then ' ' else c))

/-!
## Delimiter detection (`detectDelimiter`, indexer worker)

The source counts each candidate in the first line, stably sorts the
`(delimiter, count)` pairs by descending count and takes the head; with a
stable sort that head is the first pair attaining the maximal count, which is
what `pickTopDelimiter` folds to.
-/

def delimiterCandidates : List Char := [',', ';', '\t', '|']

def pickTopDelimiter : List (Char × Nat) → Char × Nat → Char × Nat
  | [], best => best
  | (d, c) :: rest, best =>
    pickTopDelimiter rest (if c > best.2 then (d, c) else best)

def detectDelimiter (firstLine : List Char) : Char :=
  let counts := delimiterCandidates.map fun d => (d, countChar d firstLine)
  match counts with
  | [] => ','
  | b :: rest =>
    let top := pickTopDelimiter rest b
    if top.2 > 0 then top.1 else ','

/-- The first line fed to `detectDelimiter` by `indexCSV`: the 4096-byte peek
up to the first newline — except that when the newline sits at offset 0 the
*whole* peek is used (`firstLineEnd > 0` in the source).  The zero-filled tail
of the peek buffer holds only NUL characters, which match neither `\n` nor a
delimiter, so the padding is omitted from the model. -/
def csvFirstLine (data : List Char) : List Char :=
  let peek := data.take 4096
  match idxOfChar '\n' peek with
  | some i => if i > 0 then peek.take i else peek
  | none => peek

/-- Modelled from the spec: the first logical line of the peek, i.e. the bytes
strictly before the first newline (the whole peek when there is none).  The
claimed delimiter rule reads the counts off this line. -/
def specFirstLine (data : List Char) : List Char :=
  let peek := data.take 4096
  match idxOfChar '\n' peek with
  | some i => peek.take i
  | none => peek

/-- Modelled from the spec: the delimiter with the highest count, ties broken
in the listed order `, ; \t |`, comma when all counts are zero. -/
def detectDelimiterSpec (l : List Char) : Char :=
  let c1 := countChar ',' l
  let c2 := countChar ';' l
  let c3 := countChar '\t' l
  let c4 := countChar '|' l
  if c1 = 0 ∧ c2 = 0 ∧ c3 = 0 ∧ c4 = 0 then ','
  else if c1 ≥ c2 ∧ c1 ≥ c3 ∧ c1 ≥ c4 then ','
  else if c2 ≥ c3 ∧ c2 ≥ c4 then ';'
  else if c3 ≥ c4 then '\t'
  else '|'

/-!
## Shared chunked line scan (indexer worker)

`indexCSV`, `indexNDJSON` and `indexVCF` all read the file in 32 MiB chunks,
prepend the leftover of the previous chunk, and scan the combined buffer for
`\n` (0x0A); a line ends just before the newline, with a preceding 0x0D
stripped, and its start offset is the global position of the byte after the
previous newline.  Because each chunk is the leftover concatenated with the
next slice of the file, the scan visits the newlines of the whole byte stream
in order with global offsets; `scanLinesAux` is that single pass.  The
`chunk[i-1] === 0x0D` test equals "the accumulated line is nonempty and ends
in 0x0D": when the accumulator is empty the preceding byte is a newline (or
absent), never 0x0D.
-/

def stripTrailingCR (l : List Char) : List Char :=
  match l.getLast? with
  | some '\r' => l.dropLast
  | _ => l

/-- Result of the line scan: the `(line start offset, line bytes)` events in
order, and the bytes after the last newline (the loop's final leftover, which
starts at offset `leftStart`). -/
structure LineScan where
  events : List (Nat × List Char)
  leftStart : Nat
  leftover : List Char
deriving DecidableEq, Repr

def scanLinesAux : List Char → Nat → Nat → List Char → List (Nat × List Char) → LineScan
  | [], _, lineStart, acc, evs => ⟨evs, lineStart, acc⟩
  | c :: rest, pos, lineStart, acc, evs =>
    if c = '\n' then
      scanLinesAux rest (pos + 1) (pos + 1) [] (evs ++ [(lineStart, stripTrailingCR acc)])
    else
      scanLinesAux rest (pos + 1) lineStart (acc ++ [c]) evs

def scanLines (data : List Char) : LineScan := scanLinesAux data 0 0 [] []

/-!
## Minimal JSON model

`JSON.parse` and `JSON.stringify` are host-library calls; they are modelled
by an executable parser/printer for the JSON subset the sources exercise:
objects, arrays, strings with the simple escapes, integer numbers, `true`,
`false`, `null`.  Floats and `\u` escapes make the model parser fail (return
`none`), which the indexers treat like a parse error; no claim in scope
depends on such inputs.  Object fields keep textual order, as `Object.keys`
does for non-numeric keys.
-/

inductive Json where
  | null : Json
  | bool : Bool → Json
  | num : Int → Json
  | str : List Char → Json
  | arr : List Json → Json
  | obj : List (List Char × Json) → Json

def jsonIsWs (c : Char) : Bool := c == ' ' || c == '\t' || c == '\n' || c == '\r'

def jsonSkipWs (l : List Char) : List Char := l.dropWhile jsonIsWs

def parseJsonStringAux : List Char → Option (List Char × List Char)
  | [] => none
  | '"' :: rest => some ([], rest)
  | '\\' :: e :: rest =>
    (match e with
     | '"' => some '"'
     | '\\' => some '\\'
     | '/' => some '/'
     | 'n' => some '\n'
     | 't' => some '\t'
     | 'r' => some '\r'
     | _ => none).bind fun c =>
      (parseJsonStringAux rest).map fun (s, r) => (c :: s, r)
  | c :: rest => (parseJsonStringAux rest).map fun (s, r) => (c :: s, r)

def isDigitCh (c : Char) : Bool := '0' ≤ c ∧ c ≤ '9'

def digitsToNat (l : List Char) : Nat :=
  l.foldl (fun acc c => acc * 10 + (c.toNat - '0'.toNat)) 0

/-- Parse a JSON integer at the head of the input; fails on floats and
exponents so that the model never misreads them. -/
def parseJsonInt (l : List Char) : Option (Int × List Char) :=
  let (neg, l1) := match l with
    | '-' :: rest => (true, rest)
    | _ => (false, l)
  let ds := l1.takeWhile isDigitCh
  let rest := l1.dropWhile isDigitCh
  if ds = [] then none
  else match rest with
    | '.' :: _ => none
    | 'e' :: _ => none
    | 'E' :: _ => none
    | _ =>
      let n : Int := Int.ofNat (digitsToNat ds)
      some (if neg then -n else n, rest)

mutual

def parseJsonVal : Nat → List Char → Option (Json × List Char)
  | 0, _ => none
  | fuel + 1, l =>
    match jsonSkipWs l with
    | [] => none
    | c :: rest =>
      if c = braceOpen then
        parseJsonObjBody fuel rest
      else if c = '[' then
        parseJsonArrBody fuel rest
      else if c = '"' then
        (parseJsonStringAux rest).map fun (s, r) => (Json.str s, r)
      else if c = 't' then
        match rest with
        | 'r' :: 'u' :: 'e' :: r => some (Json.bool true, r)
        | _ => none
      else if c = 'f' then
        match rest with
        | 'a' :: 'l' :: 's' :: 'e' :: r => some (Json.bool false, r)
        | _ => none
      else if c = 'n' then
        match rest with
        | 'u' :: 'l' :: 'l' :: r => some (Json.null, r)
        | _ => none
      else
        (parseJsonInt (c :: rest)).map fun (n, r) => (Json.num n, r)

def parseJsonObjBody : Nat → List Char → Option (Json × List Char)
  | 0, _ => none
  | fuel + 1, l =>
    match jsonSkipWs l with
    | c :: rest =>
      if c = braceClose then some (Json.obj [], rest)
      else (parseJsonMembers fuel (c :: rest)).map fun (fs, r) => (Json.obj fs, r)
    | [] => none

def parseJsonMembers : Nat → List Char → Option (List (List Char × Json) × List Char)
  | 0, _ => none
  | fuel + 1, l =>
    match jsonSkipWs l with
    | '"' :: rest =>
      (parseJsonStringAux rest).bind fun (key, r1) =>
        match jsonSkipWs r1 with
        | ':' :: r2 =>
          (parseJsonVal fuel r2).bind fun (v, r3) =>
            match jsonSkipWs r3 with
            | ',' :: r4 =>
              (parseJsonMembers fuel r4).map fun (fs, r5) => ((key, v) :: fs, r5)
            | c :: r4 =>
              if c = braceClose then some ([(key, v)], r4) else none
            | [] => none
        | _ => none
    | _ => none

def parseJsonArrBody : Nat → List Char → Option (Json × List Char)
  | 0, _ => none
  | fuel + 1, l =>
    match jsonSkipWs l with
    | ']' :: rest => some (Json.arr [], rest)
    | l1 => (parseJsonElems fuel l1).map fun (es, r) => (Json.arr es, r)

def parseJsonElems : Nat → List Char → Option (List Json × List Char)
  | 0, _ => none
  | fuel + 1, l =>
    (parseJsonVal fuel l).bind fun (v, r1) =>
      match jsonSkipWs r1 with
      | ',' :: r2 => (parseJsonElems fuel r2).map fun (es, r3) => (v :: es, r3)
      | ']' :: r2 => some ([v], r2)
      | _ => none

end

/-- Model of `JSON.parse`: the whole input must be one value surrounded only
by whitespace. -/
def jsonParse (l : List Char) : Option Json :=
  match parseJsonVal (2 * l.length + 4) l with
  | some (v, rest) => if jsonSkipWs rest = [] then some v else none
  | none => none

def natToCharsAux : Nat → Nat → List Char
  | 0, _ => []
  | fuel + 1, n =>
    if n < 10 then [Char.ofNat ('0'.toNat + n)]
    else natToCharsAux fuel (n / 10) ++ [Char.ofNat ('0'.toNat + n % 10)]

def natToChars (n : Nat) : List Char := natToCharsAux (n + 1) n

def intToChars (i : Int) : List Char :=
  if i < 0 then '-' :: natToChars i.natAbs else natToChars i.natAbs

def jsonEscape (s : List Char) : List Char :=
  s.flatMap fun c =>
    if c = '"' then ['\\', '"']
    else if c = '\\' then ['\\', '\\'] else [c]

def joinWith (sep : List Char) : List (List Char) → List Char
  | [] => []
  | [x] => x
  | x :: xs => x ++ sep ++ joinWith sep xs

mutual

def jsonStringify : Json → List Char
  | Json.null => lc "null"
  | Json.bool true => lc "true"
  | Json.bool false => lc "false"
  | Json.num n => intToChars n
  | Json.str s => '"' :: jsonEscape s ++ ['"']
  | Json.arr es => '[' :: jsonStringifyList es ++ [']']
  | Json.obj fs => braceOpen :: jsonStringifyFields fs ++ [braceClose]

def jsonStringifyList : List Json → List Char
  | [] => []
  | [v] => jsonStringify v
  | v :: vs => jsonStringify v ++ ',' :: jsonStringifyList vs

def jsonStringifyFields : List (List Char × Json) → List Char
  | [] => []
  | [(k, v)] => '"' :: jsonEscape k ++ '"' :: ':' :: jsonStringify v
  | (k, v) :: fs => '"' :: jsonEscape k ++ '"' :: ':' :: jsonStringify v ++ ',' :: jsonStringifyFields fs

end

/-!
## Indexers (worker `indexCSV` / `indexNDJSON` / `indexJSONArray` / `indexVCF`)

The searchable-text projection (`searchLines`/`extractSearchFields` output)
and the statistics accumulator feed artifacts no claim in scope refers to;
the embedded states carry positions, headers and the record count.  The
worker's `warningCount` and `skippedLines` globals are never incremented
anywhere in the worker, so every completed run reports them as `0`.

The chunk loop of the three line-oriented indexers breaks only when a read
returns no bytes *and* the leftover buffer is empty.  When the file's last
line has no trailing newline the leftover never empties: at EOF the loop
re-scans `leftover` (which contains no newline), re-assigns the identical
leftover and repeats without advancing.  Consequently a run completes exactly
when the scan's final leftover is empty, and the "last line without newline"
epilogues after the loops are unreachable; `csvLoopIter` below models one
iteration of the chunk loop literally so this can be proved.
-/

structure IndexResult where
  positions : List Nat
  columns : List (List Char)
  totalRecords : Nat
  warnings : Nat
  skippedLines : Nat
deriving DecidableEq, Repr

structure CsvScanState where
  isFirstLine : Bool
  headers : List (List Char)
  positions : List Nat
  totalRecords : Nat
deriving DecidableEq, Repr

def csvInit : CsvScanState := ⟨true, [], [], 0⟩

/-- Per-line body of `indexCSV`'s newline scan. -/
def csvLineStep (delim : Char) (st : CsvScanState) (ev : Nat × List Char) : CsvScanState :=
  if st.isFirstLine then
    { st with headers := parseCSVLine ev.2 delim, isFirstLine := false }
  else
    { st with positions := st.positions ++ [ev.1], totalRecords := st.totalRecords + 1 }

def indexCSVRun (data : List Char) : Option IndexResult :=
  let delim := detectDelimiter (csvFirstLine data)
  let s := scanLines data
  if s.leftover = [] then
    let st := s.events.foldl (csvLineStep delim) csvInit
    some ⟨st.positions, st.headers, st.totalRecords, 0, 0⟩
  else none

/-- `val === null || typeof val !== 'object' || Array.isArray(val)`:
the values whose keys survive into the declared columns. -/
def jsonIndexableVal : Json → Bool
  | Json.obj _ => false
  | _ => true

/-- Declared columns taken from the first successfully decoded object:
keys with null/primitive/array values, capped at 20. -/
def ndjsonHeadersOf (fs : List (List Char × Json)) : List (List Char) :=
  ((fs.filter fun f => jsonIndexableVal f.2).map Prod.fst).take 20

structure NdjsonState where
  isFirstRecord : Bool
  headers : List (List Char)
  positions : List Nat
  totalRecords : Nat
deriving Repr

def ndjsonInit : NdjsonState := ⟨true, [], [], 0⟩

/-- Per-line body of `indexNDJSON`'s newline scan. -/
def ndjsonLineStep (st : NdjsonState) (ev : Nat × List Char) : NdjsonState :=
  let line := jsTrim ev.2
  if line.length > 0 ∧ line.head? = some braceOpen then
    match jsonParse line with
    | some (Json.obj fs) =>
      let st1 := { st with positions := st.positions ++ [ev.1],
                           totalRecords := st.totalRecords + 1 }
      if st.isFirstRecord then
        { st1 with headers := ndjsonHeadersOf fs, isFirstRecord := false }
      else st1
    | _ => st
  else st

def indexNDJSONRun (data : List Char) : Option IndexResult :=
  let s := scanLines data
  if s.leftover = [] then
    let st := s.events.foldl ndjsonLineStep ndjsonInit
    some ⟨st.positions, st.headers, st.totalRecords, 0, 0⟩
  else none

/-- vCard's fixed declared column list. -/
def vcfCanonicalHeaders : List (List Char) :=
  [lc "FN", lc "N", lc "EMAIL", lc "TEL", lc "ORG",
   lc "ADR", lc "NOTE", lc "URL", lc "BDAY", lc "TITLE"]

def assocGet (k : List Char) : List (List Char × List Char) → Option (List Char)
  | [] => none
  | (k2, v) :: rest => if k2 = k then some v else assocGet k rest

/-- JS object assignment: replace in place, append when absent. -/
def assocSet (k v : List Char) : List (List Char × List Char) → List (List Char × List Char)
  | [] => [(k, v)]
  | (k2, v2) :: rest => if k2 = k then (k2, v) :: rest else (k2, v2) :: assocSet k v rest

/-- JS truthiness of `record[key]` for string values: present and non-empty. -/
def vcfTruthy (o : Option (List Char)) : Bool :=
  match o with
  | some v => v ≠ []
  | none => false

structure VcfState where
  currentStart : Option Nat
  current : List (List Char × List Char)
  lastKey : List Char
  positions : List Nat
  totalRecords : Nat
deriving DecidableEq, Repr

def vcfInit : VcfState := ⟨none, [], [], [], 0⟩

/-- Per-line body of `indexVCF`'s newline scan. -/
def vcfLineStep (st : VcfState) (ev : Nat × List Char) : VcfState :=
  let line := ev.2
  if st.currentStart ≠ none ∧ (line.head? = some ' ' ∨ line.head? = some '\t') then
    if st.lastKey ≠ [] ∧ vcfTruthy (assocGet st.lastKey st.current) then
      { st with current :=
          assocSet st.lastKey ((assocGet st.lastKey st.current).getD [] ++ line.drop 1) st.current }
    else st
  else if jsTrim line = lc "BEGIN:VCARD" then
    { st with currentStart := some ev.1, current := [], lastKey := [] }
  else if jsTrim line = lc "END:VCARD" ∧ st.currentStart ≠ none then
    { st with positions := st.positions ++ [st.currentStart.getD 0],
              totalRecords := st.totalRecords + 1,
              currentStart := none, current := [], lastKey := [] }
  else if st.currentStart ≠ none ∧ ':' ∈ line then
    match idxOfChar ':' line with
    | some colonIdx =>
      let key0 := asciiUpperAll (line.take colonIdx)
      let value := line.drop (colonIdx + 1)
      let key := if ';' ∈ key0 then key0.takeWhile (· ≠ ';') else key0
      let st1 := { st with lastKey := key }
      if ¬ vcfTruthy (assocGet key st1.current) then
        { st1 with current := assocSet key value st1.current }
      else if key = lc "EMAIL" ∨ key = lc "TEL" then
        { st1 with current :=
            assocSet key ((assocGet key st1.current).getD [] ++ lc ", " ++ value) st1.current }
      else st1
    | none => st
  else st

def indexVCFRun (data : List Char) : Option IndexResult :=
  let s := scanLines data
  if s.leftover = [] then
    let st := s.events.foldl vcfLineStep vcfInit
    some ⟨st.positions, vcfCanonicalHeaders, st.totalRecords, 0, 0⟩
  else none

/-!
## JSON-array indexer (`indexJSONArray`): byte-level depth machine
-/

structure JsonArrayState where
  depth : Int
  inString : Bool
  escapeNext : Bool
  objectStart : Option Nat
  objectBuffer : List Char
  isFirstRecord : Bool
  headers : List (List Char)
  positions : List Nat
  totalRecords : Nat
deriving Repr

def jaInit : JsonArrayState := ⟨0, false, false, none, [], true, [], [], 0⟩

/-- `if (objectStart !== -1) objectBuffer += char`. -/
def jaBuf (st : JsonArrayState) (c : Char) : List Char :=
  if st.objectStart.isSome then st.objectBuffer ++ [c] else st.objectBuffer

/-- One byte of `indexJSONArray`'s state machine, at global index `i`. -/
def jsonArrayByteStep (st : JsonArrayState) (i : Nat) (c : Char) : JsonArrayState :=
  if st.escapeNext then
    { st with escapeNext := false, objectBuffer := jaBuf st c }
  else if c = '\\' ∧ st.inString then
    { st with escapeNext := true, objectBuffer := jaBuf st c }
  else if c = '"' then
    { st with inString := ¬st.inString, objectBuffer := jaBuf st c }
  else if st.inString then
    { st with objectBuffer := jaBuf st c }
  else if c = braceOpen then
    if st.depth = 1 then
      { st with objectStart := some i, objectBuffer := [braceOpen], depth := st.depth + 1 }
    else if st.depth > 1 ∧ st.objectStart.isSome then
      { st with objectBuffer := st.objectBuffer ++ [c], depth := st.depth + 1 }
    else
      { st with depth := st.depth + 1 }
  else if c = braceClose then
    let d := st.depth - 1
    if d = 1 ∧ st.objectStart.isSome then
      match jsonParse (st.objectBuffer ++ [braceClose]) with
      | some (Json.obj fs) =>
        let st1 := { st with depth := d,
                             positions := st.positions ++ [st.objectStart.getD 0],
                             totalRecords := st.totalRecords + 1,
                             objectStart := none, objectBuffer := [] }
        if st.isFirstRecord then
          { st1 with headers := ndjsonHeadersOf fs, isFirstRecord := false }
        else st1
      | _ => { st with depth := d, objectStart := none, objectBuffer := [] }
    else if st.objectStart.isSome then
      { st with depth := d, objectBuffer := st.objectBuffer ++ [c] }
    else
      { st with depth := d }
  else if c = '[' then
    if st.depth = 0 then { st with depth := 1 }
    else { st with depth := st.depth + 1, objectBuffer := jaBuf st c }
  else if c = ']' then
    if st.depth = 1 then { st with depth := 0 }
    else { st with depth := st.depth - 1, objectBuffer := jaBuf st c }
  else
    { st with objectBuffer := jaBuf st c }

def jsonArrayScanAux : List Char → Nat → JsonArrayState → JsonArrayState
  | [], _, st => st
  | c :: rest, i, st => jsonArrayScanAux rest (i + 1) (jsonArrayByteStep st i c)

/-- `indexJSONArray`'s chunk loop breaks as soon as a read returns no bytes,
so this run is total. -/
def indexJSONArrayRun (data : List Char) : IndexResult :=
  let st := jsonArrayScanAux data 0 jaInit
  ⟨st.positions, st.headers, st.totalRecords, 0, 0⟩

/-!
## The chunk loop itself (for the divergence analysis)

`csvLoopIter` is one iteration of `indexCSV`'s `while (true)` loop: read up
to 32 MiB at `globalByteOffset`, break when nothing was read and the leftover
is empty, otherwise scan `leftover ++ bytesRead` for newlines (with global
offsets) and carry the bytes after the last newline into the next iteration.
-/

def CHUNK_SIZE : Nat := 32 * 1024 * 1024

structure ChunkLoopState where
  offset : Nat
  leftover : List Char
  scan : CsvScanState
deriving DecidableEq, Repr

/-- One iteration of `indexCSV`'s chunk loop; `none` means the loop broke. -/
def csvLoopIter (delim : Char) (file : List Char) (s : ChunkLoopState) : Option ChunkLoopState :=
  let bytesRead := (file.drop s.offset).take CHUNK_SIZE
  if bytesRead.length = 0 ∧ s.leftover.length = 0 then none
  else
    let chunkStart := s.offset - s.leftover.length
    let ls := scanLinesAux (s.leftover ++ bytesRead) chunkStart chunkStart [] []
    some ⟨s.offset + bytesRead.length, ls.leftover, ls.events.foldl (csvLineStep delim) s.scan⟩

/-- `n` iterations of the chunk loop; `none` once the loop has broken. -/
def csvLoopIterN (delim : Char) (file : List Char) : Nat → ChunkLoopState → Option ChunkLoopState
  | 0, s => some s
  | n + 1, s => (csvLoopIter delim file s).bind (csvLoopIterN delim file n)

/-!
## Position table (`writeIndexFiles` / `FileReader.getPosition`)

`writeIndexFiles` packs each record offset as 6 little-endian bytes into a
buffer of exactly `positions.length * 6` bytes.  `Buffer.readUIntLE(off, 6)`
bounds-checks `off + 6 ≤ length` and throws a `RangeError` otherwise; that is
modelled with `Except`.  (`writeUIntLE` would itself throw for offsets at or
above 2^48; files that large are out of scope and the encoder truncates.)
-/

def encodePos48 (n : Nat) : List Nat :=
  [n % 256, n / 256 % 256, n / 256 ^ 2 % 256, n / 256 ^ 3 % 256,
   n / 256 ^ 4 % 256, n / 256 ^ 5 % 256]

def writePosBuffer (positions : List Nat) : List Nat := positions.flatMap encodePos48

def decodeLE (bytes : List Nat) : Nat := bytes.foldr (fun b acc => acc * 256 + b) 0

def readUIntLE (buf : List Nat) (offset byteLength : Nat) : Except (List Char) Nat :=
  if offset + byteLength ≤ buf.length then
    Except.ok (decodeLE ((buf.drop offset).take byteLength))
  else
    Except.error (lc "The value of \"offset\" is out of range")

/-!
## Record reader (`FileReader.readRecordAt` and its helpers)

`fs.readSync` into a `Buffer.alloc(maxLen)` scratch yields the available file
bytes padded with NUL (0x00) up to `maxLen`; the padding is part of the
decoded string and is modelled explicitly because JS `trim()` does not remove
NULs.
-/

def readFileBytes (file : List Char) (pos len : Nat) : List Char :=
  let avail := (file.drop pos).take len
  avail ++ List.replicate (len - avail.length) (Char.ofNat 0)

/-- A decoded record: JS object as an insertion-ordered association list. -/
abbrev RecordMap := List (List Char × Json)

def recordGet (k : List Char) : RecordMap → Option Json
  | [] => none
  | (k2, v) :: rest => if k2 = k then some v else recordGet k rest

/-- JS object assignment for record maps. -/
def recordSet (k : List Char) (v : Json) : RecordMap → RecordMap
  | [] => [(k, v)]
  | (k2, v2) :: rest => if k2 = k then (k2, v) :: rest else (k2, v2) :: recordSet k v rest

/-- Reader's JSON value filtering: keep null/primitive values verbatim,
stringify arrays, drop object-valued fields. -/
def jsonRecordEntries (fs : List (List Char × Json)) : RecordMap :=
  fs.foldl (fun record (kv : List Char × Json) =>
    match kv.2 with
    | Json.obj _ => record
    | Json.arr a => recordSet kv.1 (Json.str (jsonStringify (Json.arr a))) record
    | v => recordSet kv.1 v record) []

/-- CSV branch: `meta.columns.forEach((col, i) => record[col] = values[i] || '')`. -/
def csvZipRecord (columns values : List (List Char)) : RecordMap :=
  columns.enum.foldl (fun record (icol : Nat × List Char) =>
    recordSet icol.2 (Json.str (values.getD icol.1 [])) record) []

/-- `FileReader.extractJSONObject`: depth machine over the scratch string,
`JSON.parse` of the slice between the outermost braces. -/
def extractJSONAux (str : List Char) :
    List Char → Nat → Int → Bool → Bool → Option Nat → Option Json
  | [], _, _, _, _, _ => none
  | c :: rest, i, depth, inString, escapeNext, start =>
    if escapeNext then
      extractJSONAux str rest (i + 1) depth inString false start
    else if c = '\\' ∧ inString then
      extractJSONAux str rest (i + 1) depth inString true start
    else if c = '"' then
      extractJSONAux str rest (i + 1) depth (¬inString) false start
    else if inString then
      extractJSONAux str rest (i + 1) depth inString false start
    else if c = braceOpen then
      extractJSONAux str rest (i + 1) (depth + 1) inString false
        (if depth = 0 then some i else start)
    else if c = braceClose then
      if depth - 1 = 0 ∧ start.isSome then
        match jsonParse ((str.take (i + 1)).drop (start.getD 0)) with
        | some v => some v
        | none => none
      else
        extractJSONAux str rest (i + 1) (depth - 1) inString false start
    else
      extractJSONAux str rest (i + 1) depth inString false start

def extractJSONObject (str : List Char) : Option Json :=
  extractJSONAux str str 0 0 false false none

/-- `vCardStr.replace(/\r?\n[ \t]/g, '')`: remove each newline (with optional
carriage return) that is followed by a space or tab, together with that one
whitespace character. -/
def vcfUnfoldF : Nat → List Char → List Char
  | 0, l => l
  | _, [] => []
  | fuel + 1, '\r' :: '\n' :: c :: rest =>
    if c = ' ' ∨ c = '\t' then vcfUnfoldF fuel rest
    else '\r' :: vcfUnfoldF fuel ('\n' :: c :: rest)
  | fuel + 1, '\n' :: c :: rest =>
    if c = ' ' ∨ c = '\t' then vcfUnfoldF fuel rest
    else '\n' :: vcfUnfoldF fuel (c :: rest)
  | fuel + 1, c :: rest => c :: vcfUnfoldF fuel rest

def vcfUnfold (l : List Char) : List Char := vcfUnfoldF (l.length + 1) l

/-- `split(/\r?\n/)`. -/
def splitLinesAux (cur : List Char) : List Char → List (List Char)
  | [] => [cur]
  | '\r' :: '\n' :: rest => cur :: splitLinesAux [] rest
  | '\n' :: rest => cur :: splitLinesAux [] rest
  | c :: rest => splitLinesAux (cur ++ [c]) rest

def splitLines (l : List Char) : List (List Char) := splitLinesAux [] l

/-- `FileReader.parseVCard`: unfold continuations, then fold the property
lines; values are JS strings. -/
def parseVCard (vCardStr : List Char) : List (List Char × List Char) :=
  (splitLines (vcfUnfold vCardStr)).foldl (fun record line =>
    if ¬(':' ∈ line) ∨ line = lc "BEGIN:VCARD" ∨ line = lc "END:VCARD" ∨
        (lc "VERSION:").isPrefixOf line then
      record
    else
      match idxOfChar ':' line with
      | some colonIdx =>
        let key0 := asciiUpperAll (line.take colonIdx)
        let value := line.drop (colonIdx + 1)
        let key := if ';' ∈ key0 then key0.takeWhile (· ≠ ';') else key0
        if ¬ vcfTruthy (assocGet key record) then assocSet key value record
        else if key = lc "EMAIL" ∨ key = lc "TEL" then
          assocSet key ((assocGet key record).getD [] ++ lc ", " ++ value) record
        else record
      | none => record) []

/-- Index of the first occurrence of `needle` (JS `String.indexOf`). -/
def idxOfList (needle : List Char) : List Char → Option Nat
  | [] => if needle = [] then some 0 else none
  | c :: rest =>
    if needle.isPrefixOf (c :: rest) then some 0
    else (idxOfList needle rest).map (· + 1)

/-- Catalog metadata as the reader sees it. -/
structure IndexMeta where
  fileId : List Char
  fileType : List Char
  format : Option (List Char)
  delimiter : Option Char
  columns : List (List Char)
  totalRecords : Nat

/-- The format dispatch of `readRecordAt` over the scratch string: CSV by
`fileType`, then `json-array` by `format`, then vCard, else NDJSON.
Exceptions inside the reader's `try` (a failed `JSON.parse`) and the vCard
missing-END early return all yield `null`, i.e. `none`. -/
def decodeRecord (meta : IndexMeta) (str : List Char) : Option RecordMap :=
  if meta.fileType = lc "csv" then
    let line0 := match idxOfChar '\n' str with
      | some endIdx => str.take endIdx
      | none => str
    let line := if line0.getLast? = some '\r' then line0.dropLast else line0
    let values := parseCSVLine line (meta.delimiter.getD ',')
    some (csvZipRecord meta.columns values)
  else if meta.format = some (lc "json-array") then
    match extractJSONObject str with
    | some (Json.obj fs) => some (jsonRecordEntries fs)
    | _ => none
  else if meta.format = some (lc "vcf") ∨ meta.fileType = lc "vcf" then
    match idxOfList (lc "END:VCARD") str with
    | none => none
    | some endMarker =>
      some ((parseVCard (str.take (endMarker + 9))).map fun kv => (kv.1, Json.str kv.2))
  else
    let line0 := match idxOfChar '\n' str with
      | some endIdx => str.take endIdx
      | none => str
    let line1 := if line0.getLast? = some '\r' then line0.dropLast else line0
    let line := jsTrim line1
    if line.head? = some braceOpen then
      match jsonParse line with
      | some (Json.obj fs) => some (jsonRecordEntries fs)
      | _ => none
    else none

def cacheLookup (key : List Char × Nat) :
    List ((List Char × Nat) × RecordMap) → Option RecordMap
  | [] => none
  | (k, r) :: rest => if k = key then some r else cacheLookup key rest

/-- `FileReader.readRecordAt`.  The record-cache check and both position
lookups happen *before* the `try` block, so a `RangeError` from
`readUIntLE` propagates to the caller; decode failures inside the `try`
surface as `ok none`.  The cache key `${fileId}:${index}` is modelled as the
structured pair. -/
def readRecordAt (cache : List ((List Char × Nat) × RecordMap)) (file : List Char)
    (posBuf : List Nat) (index totalRecords : Nat) (meta : IndexMeta) :
    Except (List Char) (Option RecordMap) :=
  match cacheLookup (meta.fileId, index) cache with
  | some r => Except.ok (some r)
  | none =>
    match readUIntLE posBuf (index * 6) 6 with
    | Except.error e => Except.error e
    | Except.ok pos =>
      match (if index + 1 < totalRecords then readUIntLE posBuf ((index + 1) * 6) 6
             else Except.ok (pos + 16384)) with
      | Except.error e => Except.error e
      | Except.ok nextPos =>
        let maxLen := min (nextPos - pos + 500) 32768
        Except.ok (decodeRecord meta (readFileBytes file pos maxLen))

/-- `FileReader.getRecord`: `record || {}`.  No `_index` key is added on this
path (only `getPage` and `search` add `_index` to their records). -/
def getRecord (cache : List ((List Char × Nat) × RecordMap)) (file : List Char)
    (posBuf : List Nat) (index : Nat) (meta : IndexMeta) :
    Except (List Char) RecordMap :=
  match readRecordAt cache file posBuf index meta.totalRecords meta with
  | Except.error e => Except.error e
  | Except.ok (some r) => Except.ok r
  | Except.ok none => Except.ok []

/-- The request bridge's `safeHandler`: a thrown error becomes a structured
`error` response, a normal return is passed through. -/
inductive IpcResponse (α : Type) where
  | ok : α → IpcResponse α
  | err : List Char → IpcResponse α

def safeHandler {α : Type} : Except (List Char) α → IpcResponse α
  | Except.ok a => IpcResponse.ok a
  | Except.error e => IpcResponse.err e

/-- The `data:record` handler: `validateIndex` accepts every natural number
(`index ≥ 0`), then `fileReader.getRecord` runs under `safeHandler`. -/
def dataRecordHandler (cache : List ((List Char × Nat) × RecordMap)) (file : List Char)
    (posBuf : List Nat) (index : Nat) (meta : IndexMeta) : IpcResponse RecordMap :=
  safeHandler (getRecord cache file posBuf index meta)

/-!
## Store (`src/main/store.ts`) and the `file:remove-recent` handler

`Store.removeRecentFile` filters the in-memory recent list and persists it to
`recent.json`; it touches neither the `indexes/` directory nor the database.
`Store.isIndexed` — used by the `file:info` handler for the `indexed` flag —
only tests whether `{id}.meta.json` exists.  The state groups the recent
list, the index-directory file names and the database row keys.
-/

structure StoreState where
  recent : List (List Char)
  diskFiles : List (List Char)
  dbCatalogIds : List (List Char)
  dbStatsIds : List (List Char)
  dbSearchIds : List (List Char)
deriving DecidableEq, Repr

/-- `Store.removeRecentFile` (the whole effect of `file:remove-recent`). -/
def removeRecentFile (s : StoreState) (fileId : List Char) : StoreState :=
  { s with recent := s.recent.filter (fun f => f ≠ fileId) }

/-- `Store.isIndexed`. -/
def storeIsIndexed (s : StoreState) (fileId : List Char) : Bool :=
  (fileId ++ lc ".meta.json") ∈ s.diskFiles

/-- The `indexed` flag computed by the `file:info` handler for an unchanged
file (same fingerprint). -/
def openFileInfoIndexed (s : StoreState) (fileId : List Char) : Bool :=
  storeIsIndexed s fileId

/-- The files in the index directory whose name starts with the id. -/
def diskFilesWithId (s : StoreState) (fileId : List Char) : List (List Char) :=
  s.diskFiles.filter (fun n => fileId.isPrefixOf n)

/-!
## Index coordinator (`Indexer`) and cancellation

The worker performs its chunk iterations purely in memory and only touches
the disk in `writeIndexFiles`, after the parse loop; the relational rows for
the file appear later still, on the first lazy import by the reader.
`Indexer.cancel` terminates the worker (modelled: execution stops after the
steps already taken) and, the worker still being registered, emits the
terminal `cancelled` progress event.
-/

inductive JobStatus where
  | indexing : JobStatus
  | complete : JobStatus
  | cancelled : JobStatus
  | error : JobStatus
deriving DecidableEq, Repr

inductive WorkerStep where
  | parseChunk : WorkerStep
  | commit : WorkerStep
deriving DecidableEq, Repr

/-- Chunk-boundary count of the worker loop: one iteration per started 32 MiB
slice plus the final empty read. -/
def chunkCountOf (data : List Char) : Nat := data.length / CHUNK_SIZE + 1

def workerSteps (data : List Char) : List WorkerStep :=
  List.replicate (chunkCountOf data) WorkerStep.parseChunk ++ [WorkerStep.commit]

structure JobState where
  disk : List (List Char)
  dbSearchIds : List (List Char)
  statusEvents : List JobStatus
deriving DecidableEq, Repr

def jobStart : JobState := ⟨[], [], [JobStatus.indexing]⟩

/-- Effect of one worker step: parsing writes nothing; the commit writes the
four `{id}.*` artifacts. No step writes relational search rows. -/
def applyWorkerStep (fileId : List Char) (s : JobState) : WorkerStep → JobState
  | WorkerStep.parseChunk => s
  | WorkerStep.commit =>
    { s with disk := s.disk ++
        [fileId ++ lc ".index.bin", fileId ++ lc ".search.txt",
         fileId ++ lc ".meta.json", fileId ++ lc ".stats.json"] }

/-- The job when `cancel(fileId)` fires at chunk boundary `k`: the first `k`
steps have run, the worker is terminated, and `cancelled` is emitted. -/
def cancelRun (fileId : List Char) (data : List Char) (k : Nat) : JobState :=
  let s := ((workerSteps data).take k).foldl (applyWorkerStep fileId) jobStart
  { s with statusEvents := s.statusEvents ++ [JobStatus.cancelled] }

/-- The catalog entry for the id is visible iff its meta artifact exists
(`Store.isIndexed` on the job's disk). -/
def jobCatalogVisible (fileId : List Char) (s : JobState) : Bool :=
  (fileId ++ lc ".meta.json") ∈ s.disk

/-!
## Search operators (`DatabaseManager.search` / `regexToLike`)

`col0..col5` hold lowercased projections; SQLite `LIKE` is case-insensitive
on ASCII and `=` is exact; `NULL` fails `=` and `LIKE` and satisfies
`IS NULL OR NOT LIKE`.  `regexToLike` chains JS global replaces; a global
replace of a single character with the empty string is character removal.
-/

inductive SqlCond where
  | eqv : List Char → SqlCond
  | likePat : List Char → SqlCond
  | isNullOrNotLike : List Char → SqlCond
deriving DecidableEq, Repr

/-- JS `String.prototype.replace` with a global pattern standing for the
literal `nh :: nt` and a plain replacement: scan left to right, replace
non-overlapping occurrences, never rescan the replacement. -/
def replaceAllSubF (nh : Char) (nt : List Char) (repl : List Char) : Nat → List Char → List Char
  | 0, l => l
  | _, [] => []
  | fuel + 1, c :: rest =>
    if (nh :: nt).isPrefixOf (c :: rest) then
      repl ++ replaceAllSubF nh nt repl fuel (rest.drop nt.length)
    else c :: replaceAllSubF nh nt repl fuel rest

def replaceAllSub (nh : Char) (nt : List Char) (repl : List Char) (l : List Char) : List Char :=
  replaceAllSubF nh nt repl (l.length + 1) l

/-- `DatabaseManager.regexToLike`: lowercase, `.*`→`%`, remaining `.`→`_`,
remove every `^` and every `$`, wrap in `%…%` when no wildcard remains. -/
def regexToLike (regex : List Char) : List Char :=
  let p1 := asciiLowerAll regex
  let p2 := replaceAllSub '.' ['*'] (lc "%") p1
  let p3 := replaceAllSub '.' [] (lc "_") p2
  let p4 := replaceAllSub '^' [] [] p3
  let p5 := replaceAllSub '$' [] [] p4
  if ¬('%' ∈ p5) ∧ ¬('_' ∈ p5) then lc "%" ++ p5 ++ lc "%" else p5

/-- Modelled from the spec: the claimed transformation, which strips only a
*leading* `^` and a *trailing* `$`. -/
def regexToLikeClaim (regex : List Char) : List Char :=
  let p1 := asciiLowerAll regex
  let p2 := replaceAllSub '.' ['*'] (lc "%") p1
  let p3 := replaceAllSub '.' [] (lc "_") p2
  let p4 := match p3 with
    | '^' :: rest => rest
    | l => l
  let p5 := if p4.getLast? = some '$' then p4.dropLast else p4
  if ¬('%' ∈ p5) ∧ ¬('_' ∈ p5) then lc "%" ++ p5 ++ lc "%" else p5

/-- Modelled from the spec (amended): as the code — every `^` and every `$`
is removed, wherever it occurs. -/
def regexToLikeAmended (regex : List Char) : List Char :=
  let p1 := asciiLowerAll regex
  let p2 := replaceAllSub '.' ['*'] (lc "%") p1
  let p3 := replaceAllSub '.' [] (lc "_") p2
  let p4 := p3.filter (· ≠ '^')
  let p5 := p4.filter (· ≠ '$')
  if ¬('%' ∈ p5) ∧ ¬('_' ∈ p5) then lc "%" ++ p5 ++ lc "%" else p5

/-- The operator switch of `DatabaseManager.search` (unknown operators fall
through to `contains`). -/
def condForOperator (op value : List Char) : SqlCond :=
  let lowerValue := asciiLowerAll value
  if op = lc "equals" then SqlCond.eqv lowerValue
  else if op = lc "startsWith" then SqlCond.likePat (lowerValue ++ lc "%")
  else if op = lc "endsWith" then SqlCond.likePat (lc "%" ++ lowerValue)
  else if op = lc "not" then SqlCond.isNullOrNotLike (lc "%" ++ lowerValue ++ lc "%")
  else if op = lc "regex" then SqlCond.likePat (regexToLike value)
  else SqlCond.likePat (lc "%" ++ lowerValue ++ lc "%")

/-- SQLite `LIKE`: `%` matches any run, `_` one character, letters match
ASCII-case-insensitively. -/
def likeMatchF : Nat → List Char → List Char → Bool
  | 0, _, _ => false
  | fuel + 1, p, t =>
    match p, t with
    | [], [] => true
    | [], _ :: _ => false
    | '%' :: p2, t =>
      likeMatchF fuel p2 t ||
        (match t with
         | [] => false
         | _ :: t2 => likeMatchF fuel ('%' :: p2) t2)
    | '_' :: _, [] => false
    | '_' :: p2, _ :: t2 => likeMatchF fuel p2 t2
    | _ :: _, [] => false
    | c :: p2, d :: t2 => (asciiLower c = asciiLower d) && likeMatchF fuel p2 t2

def likeMatch (p t : List Char) : Bool := likeMatchF (p.length + t.length + 1) p t

/-- SQL condition on a nullable column value. -/
def evalCond : SqlCond → Option (List Char) → Bool
  | SqlCond.eqv _, none => false
  | SqlCond.eqv v, some s => s = v
  | SqlCond.likePat _, none => false
  | SqlCond.likePat p, some s => likeMatch p s
  | SqlCond.isNullOrNotLike _, none => true
  | SqlCond.isNullOrNotLike p, some s => ¬ likeMatch p s

/-- `DatabaseManager.search` restricted to one searchable column: `total` for
a single `(value, operator)` field; an empty value contributes no condition,
and with no conditions the function returns `total = 0`. -/
def searchTotalOneField (rows : List (Option (List Char))) (op value : List Char) : Nat :=
  if value = [] then 0
  else (rows.filter (fun c => evalCond (condForOperator op value) c)).length

/-!
## Derived predicates and concrete inputs used by the claims
-/

/-- The lines for which `indexNDJSON` emits a record: trimmed, nonempty,
starting with a brace and decoding to a JSON object. -/
def ndjsonAccepts (raw : List Char) : Bool :=
  let line := jsTrim raw
  if line.length > 0 ∧ line.head? = some braceOpen then
    match jsonParse line with
    | some (Json.obj _) => true
    | _ => false
  else false

/-- String-typed field lookup in a decoded record. -/
def recordGetStr (k : List Char) (r : RecordMap) : Option (List Char) :=
  match recordGet k r with
  | some (Json.str s) => some s
  | _ => none

/-- The spec's literal CSV source of scenario 1: no trailing newline. -/
def c3input : List Char := lc "name,email\n\"Doe, John\",\"a@x\"\nJane,b@y"

/-- The chunk-loop state reached after the first iteration on `c3input`:
everything read, the newline-less last line left over. -/
def c3stuck : ChunkLoopState :=
  ⟨37, lc "Jane,b@y", ⟨false, [lc "name", lc "email"], [11], 1⟩⟩

/-- A CSV source whose second line has an unbalanced quote and the wrong
field count (headers declare 2 columns). -/
def c2input : List Char := lc "a,b\n\"x\n"

/-- A 16-hex id and a store state in which that id is fully indexed and on
the recent list. -/
def c1id : List Char := lc "00112233aabbccdd"

def c1state : StoreState :=
  ⟨[c1id],
   [c1id ++ lc ".meta.json", c1id ++ lc ".index.bin", c1id ++ lc ".search.txt",
    c1id ++ lc ".stats.json"],
   [c1id], [c1id], [c1id]⟩

/-- A CSV peek whose first newline is at offset 0. -/
def c9input : List Char := lc "\n;;"

/-- NDJSON source whose second record introduces the key `b` that the first
record (which fixes the declared columns) does not have. -/
def c6line1 : List Char := braceOpen :: (lc "\"a\":1" ++ [braceClose])

def c6line2 : List Char := braceOpen :: (lc "\"a\":2,\"b\":3" ++ [braceClose])

def c6input : List Char := c6line1 ++ '\n' :: c6line2 ++ ['\n']

def c6meta : IndexMeta := ⟨lc "f2", lc "json", some (lc "ndjson"), none, [lc "a"], 2⟩

/-- The spec's literal vCard source of scenario 4. -/
def c8input : List Char := lc "BEGIN:VCARD\nFN:Al\n Pha\nEMAIL:a@x\nEMAIL:b@y\nEND:VCARD\n"

def c8meta : IndexMeta :=
  ⟨lc "f3", lc "vcf", some (lc "vcf"), none, vcfCanonicalHeaders, 1⟩

/-- The projected column values of the spec's operator dataset. -/
def aliceRows : List (Option (List Char)) :=
  [some (lc "alice"), some (lc "alicia"), some (lc "bob")]

/-!
## Invariants of the newline scan
-/

theorem scanLinesAux_inv (data : List Char) :
    ∀ (pos lineStart : Nat) (acc : List Char) (evs : List (Nat × List Char)),
      lineStart ≤ pos →
      (∀ e ∈ evs, e.1 < lineStart) →
      List.Pairwise (fun a b : Nat × List Char => a.1 < b.1) evs →
      List.Pairwise (fun a b : Nat × List Char => a.1 < b.1)
          (scanLinesAux data pos lineStart acc evs).events ∧
      (∀ e ∈ (scanLinesAux data pos lineStart acc evs).events,
          e.1 < (scanLinesAux data pos lineStart acc evs).leftStart) ∧
      (scanLinesAux data pos lineStart acc evs).leftStart ≤ pos + data.length := by
  induction data with
  | nil =>
    intro pos lineStart acc evs h1 h2 h3
    simp only [scanLinesAux]
    exact ⟨h3, h2, by omega⟩
  | cons c rest ih =>
    intro pos lineStart acc evs h1 h2 h3
    simp only [scanLinesAux]
    by_cases hc : c = '\n'
    · rw [if_pos hc]
      have h2' : ∀ e ∈ evs ++ [(lineStart, stripTrailingCR acc)], e.1 < pos + 1 := by
        intro e he
        rcases List.mem_append.1 he with h | h
        · exact lt_of_lt_of_le (h2 e h) (by omega)
        · rcases List.mem_singleton.1 h with rfl
          omega
      have h3' : List.Pairwise (fun a b : Nat × List Char => a.1 < b.1)
          (evs ++ [(lineStart, stripTrailingCR acc)]) := by
        refine List.pairwise_append.2 ⟨h3, List.pairwise_singleton _ _, ?_⟩
        intro a ha b hb
        rcases List.mem_singleton.1 hb with rfl
        exact h2 a ha
      have := ih (pos + 1) (pos + 1) [] (evs ++ [(lineStart, stripTrailingCR acc)])
        (le_refl _) h2' h3'
      refine ⟨this.1, this.2.1, ?_⟩
      have := this.2.2
      simp only [List.length_cons]
      omega
    · rw [if_neg hc]
      have := ih (pos + 1) lineStart (acc ++ [c]) evs (by omega) h2 h3
      refine ⟨this.1, this.2.1, ?_⟩
      have := this.2.2
      simp only [List.length_cons]
      omega

theorem scanLines_inv (data : List Char) :
    List.Pairwise (fun a b : Nat × List Char => a.1 < b.1) (scanLines data).events ∧
    (∀ e ∈ (scanLines data).events, e.1 < (scanLines data).leftStart) ∧
    (scanLines data).leftStart ≤ data.length := by
  have := scanLinesAux_inv data 0 0 [] [] (le_refl 0) (by simp) (by simp)
  simpa [scanLines] using this

/-- Starts of scanned lines are strictly increasing and below the file size. -/
theorem scanLines_starts (data : List Char) :
    List.Pairwise (· < ·) ((scanLines data).events.map Prod.fst) ∧
    (∀ e ∈ (scanLines data).events, e.1 < data.length) := by
  obtain ⟨hp, hlt, hle⟩ := scanLines_inv data
  constructor
  · exact List.Pairwise.map Prod.fst (fun a b h => h) hp
  · intro e he
    exact lt_of_lt_of_le (hlt e he) hle

/-!
## Invariants of the CSV fold
-/

theorem csvFold_after_header (delim : Char) (evs : List (Nat × List Char)) :
    ∀ (st : CsvScanState), st.isFirstLine = false →
      (evs.foldl (csvLineStep delim) st).positions = st.positions ++ evs.map Prod.fst ∧
      (evs.foldl (csvLineStep delim) st).totalRecords = st.totalRecords + evs.length := by
  induction evs with
  | nil => intro st h; simp
  | cons e rest ih =>
    intro st h
    simp only [List.foldl_cons]
    have hstep : csvLineStep delim st e =
        { st with positions := st.positions ++ [e.1], totalRecords := st.totalRecords + 1 } := by
      simp [csvLineStep, h]
    rw [hstep]
    obtain ⟨hpos, htot⟩ :=
      ih ({ st with positions := st.positions ++ [e.1], totalRecords := st.totalRecords + 1 }) h
    constructor
    · rw [hpos]
      simp [List.append_assoc]
    · rw [htot]
      simp only [List.length_cons]
      omega

theorem csvScan_result (delim : Char) (evs : List (Nat × List Char)) :
    (evs.foldl (csvLineStep delim) csvInit).positions = evs.tail.map Prod.fst ∧
    (evs.foldl (csvLineStep delim) csvInit).totalRecords = evs.tail.length := by
  cases evs with
  | nil => simp [csvInit]
  | cons e rest =>
    simp only [List.foldl_cons, List.tail_cons]
    have hstep : csvLineStep delim csvInit e =
        { csvInit with headers := parseCSVLine e.2 delim, isFirstLine := false } := by
      simp [csvLineStep, csvInit]
    rw [hstep]
    have h := csvFold_after_header delim rest
      { csvInit with headers := parseCSVLine e.2 delim, isFirstLine := false } (by simp)
    simpa [csvInit] using h

/-!
## Invariants of the NDJSON fold
-/

theorem ndjsonLineStep_skips (st : NdjsonState) (ev : Nat × List Char)
    (h : ndjsonAccepts ev.2 = false) : ndjsonLineStep st ev = st := by
  simp only [ndjsonAccepts] at h
  simp only [ndjsonLineStep]
  by_cases hc : (jsTrim ev.2).length > 0 ∧ (jsTrim ev.2).head? = some braceOpen
  · rw [if_pos hc] at h ⊢
    rcases hj : jsonParse (jsTrim ev.2) with _ | v
    · rfl
    · rw [hj] at h
      cases v <;> simp_all
  · rw [if_neg hc]

theorem ndjsonLineStep_accepts (st : NdjsonState) (ev : Nat × List Char)
    (h : ndjsonAccepts ev.2 = true) :
    (ndjsonLineStep st ev).positions = st.positions ++ [ev.1] ∧
    (ndjsonLineStep st ev).totalRecords = st.totalRecords + 1 := by
  simp only [ndjsonAccepts] at h
  simp only [ndjsonLineStep]
  by_cases hc : (jsTrim ev.2).length > 0 ∧ (jsTrim ev.2).head? = some braceOpen
  · rw [if_pos hc] at h ⊢
    rcases hj : jsonParse (jsTrim ev.2) with _ | v
    · rw [hj] at h
      simp at h
    · rw [hj] at h
      cases v <;> simp_all
      by_cases hf : st.isFirstRecord = true <;> simp [hf]
  · rw [if_neg hc] at h
    simp at h

theorem ndjsonFold_result (evs : List (Nat × List Char)) :
    ∀ st : NdjsonState,
      (evs.foldl ndjsonLineStep st).positions =
        st.positions ++ (evs.filter fun ev => ndjsonAccepts ev.2).map Prod.fst ∧
      (evs.foldl ndjsonLineStep st).totalRecords =
        st.totalRecords + (evs.filter fun ev => ndjsonAccepts ev.2).length := by
  induction evs with
  | nil => intro st; simp
  | cons e rest ih =>
    intro st
    simp only [List.foldl_cons]
    cases ha : ndjsonAccepts e.2 with
    | true =>
      have hfil : (e :: rest).filter (fun ev => ndjsonAccepts ev.2) =
          e :: rest.filter (fun ev => ndjsonAccepts ev.2) := by
        simp [List.filter_cons, ha]
      rw [hfil]
      obtain ⟨hp, ht⟩ := ndjsonLineStep_accepts st e ha
      obtain ⟨hp2, ht2⟩ := ih (ndjsonLineStep st e)
      constructor
      · rw [hp2, hp]
        simp [List.append_assoc]
      · rw [ht2, ht]
        simp only [List.length_cons]
        omega
    | false =>
      have hfil : (e :: rest).filter (fun ev => ndjsonAccepts ev.2) =
          rest.filter (fun ev => ndjsonAccepts ev.2) := by
        simp [List.filter_cons, ha]
      rw [hfil, ndjsonLineStep_skips st e ha]
      exact ih st

/-!
## Invariants of the vCard fold
-/

/-- Every branch of `vcfLineStep` either leaves positions, record count and
the open-card start unchanged, opens a card at the current line start, or
closes the open card by pushing its recorded start. -/
theorem vcfLineStep_shape (st : VcfState) (ev : Nat × List Char) :
    ((vcfLineStep st ev).positions = st.positions ∧
     (vcfLineStep st ev).currentStart = st.currentStart ∧
     (vcfLineStep st ev).totalRecords = st.totalRecords) ∨
    ((vcfLineStep st ev).positions = st.positions ∧
     (vcfLineStep st ev).currentStart = some ev.1 ∧
     (vcfLineStep st ev).totalRecords = st.totalRecords) ∨
    (∃ s, st.currentStart = some s ∧
     (vcfLineStep st ev).positions = st.positions ++ [s] ∧
     (vcfLineStep st ev).currentStart = none ∧
     (vcfLineStep st ev).totalRecords = st.totalRecords + 1) := by
  simp only [vcfLineStep]
  by_cases h1 : st.currentStart ≠ none ∧ (ev.2.head? = some ' ' ∨ ev.2.head? = some '\t')
  · rw [if_pos h1]
    by_cases h2 : st.lastKey ≠ [] ∧ vcfTruthy (assocGet st.lastKey st.current)
    · rw [if_pos h2]
      exact Or.inl ⟨rfl, rfl, rfl⟩
    · rw [if_neg h2]
      exact Or.inl ⟨rfl, rfl, rfl⟩
  · rw [if_neg h1]
    by_cases h2 : jsTrim ev.2 = lc "BEGIN:VCARD"
    · rw [if_pos h2]
      exact Or.inr (Or.inl ⟨rfl, rfl, rfl⟩)
    · rw [if_neg h2]
      by_cases h3 : jsTrim ev.2 = lc "END:VCARD" ∧ st.currentStart ≠ none
      · rw [if_pos h3]
        obtain ⟨s, hs⟩ := Option.ne_none_iff_exists'.1 h3.2
        refine Or.inr (Or.inr ⟨s, hs, ?_, rfl, rfl⟩)
        simp [hs]
      · rw [if_neg h3]
        by_cases h4 : st.currentStart ≠ none ∧ ':' ∈ ev.2
        · rw [if_pos h4]
          rcases hidx : idxOfChar ':' ev.2 with _ | colonIdx
          · exact Or.inl ⟨rfl, rfl, rfl⟩
          · refine Or.inl ?_
            dsimp only
            split_ifs <;> exact ⟨rfl, rfl, rfl⟩
        · rw [if_neg h4]
          exact Or.inl ⟨rfl, rfl, rfl⟩

theorem vcfFold_inv (evs : List (Nat × List Char)) :
    ∀ (st : VcfState) (bound : Nat),
      List.Pairwise (fun a b : Nat × List Char => a.1 < b.1) evs →
      (∀ e ∈ evs, e.1 < bound) →
      List.Pairwise (· < ·) st.positions →
      (∀ p ∈ st.positions, p < bound) →
      (∀ p ∈ st.positions, ∀ e ∈ evs, p < e.1) →
      (∀ s, st.currentStart = some s →
        s < bound ∧ (∀ p ∈ st.positions, p < s) ∧ (∀ e ∈ evs, s < e.1)) →
      st.totalRecords = st.positions.length →
      List.Pairwise (· < ·) (evs.foldl vcfLineStep st).positions ∧
      (∀ p ∈ (evs.foldl vcfLineStep st).positions, p < bound) ∧
      (evs.foldl vcfLineStep st).totalRecords = (evs.foldl vcfLineStep st).positions.length := by
  induction evs with
  | nil =>
    intro st bound _ _ h3 h4 _ _ h7
    exact ⟨h3, h4, h7⟩
  | cons e rest ih =>
    intro st bound hp hb h3 h4 h5 h6 h7
    simp only [List.foldl_cons]
    have hp' := List.Pairwise.of_cons hp
    have hb' : ∀ e2 ∈ rest, e2.1 < bound := fun e2 he2 => hb e2 (List.mem_cons_of_mem _ he2)
    have hrel : ∀ e2 ∈ rest, e.1 < e2.1 := (List.pairwise_cons.1 hp).1
    rcases vcfLineStep_shape st e with ⟨q1, q2, q3⟩ | ⟨q1, q2, q3⟩ | ⟨s, hs, q1, q2, q3⟩
    · refine ih (vcfLineStep st e) bound hp' hb' (q1 ▸ h3) (q1 ▸ h4) ?_ ?_ ?_
      · intro p hp2 e2 he2
        rw [q1] at hp2
        exact h5 p hp2 e2 (List.mem_cons_of_mem _ he2)
      · intro s hs
        rw [q2] at hs
        obtain ⟨w1, w2, w3⟩ := h6 s hs
        exact ⟨w1, fun p hp2 => w2 p (q1 ▸ hp2), fun e2 he2 => w3 e2 (List.mem_cons_of_mem _ he2)⟩
      · rw [q3, q1, h7]
    · refine ih (vcfLineStep st e) bound hp' hb' (q1 ▸ h3) (q1 ▸ h4) ?_ ?_ ?_
      · intro p hp2 e2 he2
        rw [q1] at hp2
        exact h5 p hp2 e2 (List.mem_cons_of_mem _ he2)
      · intro s hs
        rw [q2] at hs
        rcases Option.some.inj hs with rfl
        refine ⟨hb e (List.mem_cons_self _ _), ?_, hrel⟩
        intro p hp2
        exact h5 p (q1 ▸ hp2) e (List.mem_cons_self _ _)
      · rw [q3, q1, h7]
    · obtain ⟨w1, w2, w3⟩ := h6 s hs
      refine ih (vcfLineStep st e) bound hp' hb' ?_ ?_ ?_ ?_ ?_
      · rw [q1]
        refine List.pairwise_append.2 ⟨h3, List.pairwise_singleton _ _, ?_⟩
        intro a ha b hbmem
        rcases List.mem_singleton.1 hbmem with rfl
        exact w2 a ha
      · intro p hp2
        rw [q1] at hp2
        rcases List.mem_append.1 hp2 with h | h
        · exact h4 p h
        · rcases List.mem_singleton.1 h with rfl
          exact w1
      · intro p hp2 e2 he2
        rw [q1] at hp2
        rcases List.mem_append.1 hp2 with h | h
        · exact h5 p h e2 (List.mem_cons_of_mem _ he2)
        · rcases List.mem_singleton.1 h with rfl
          exact w3 e2 (List.mem_cons_of_mem _ he2)
      · intro s2 hs2
        rw [q2] at hs2
        exact absurd hs2 (Option.noConfusion)
      · rw [q3, q1, h7]
        simp

/-!
## Invariants of the JSON-array byte machine
-/

/-- Every branch of `jsonArrayByteStep` leaves positions, record count and
the candidate start unchanged, or opens a candidate at the current byte, or
resets the candidate, or closes it by pushing its recorded start. -/
theorem jsonArrayByteStep_shape (st : JsonArrayState) (i : Nat) (c : Char) :
    ((jsonArrayByteStep st i c).positions = st.positions ∧
     (jsonArrayByteStep st i c).objectStart = st.objectStart ∧
     (jsonArrayByteStep st i c).totalRecords = st.totalRecords) ∨
    ((jsonArrayByteStep st i c).positions = st.positions ∧
     (jsonArrayByteStep st i c).objectStart = some i ∧
     (jsonArrayByteStep st i c).totalRecords = st.totalRecords) ∨
    ((jsonArrayByteStep st i c).positions = st.positions ∧
     (jsonArrayByteStep st i c).objectStart = none ∧
     (jsonArrayByteStep st i c).totalRecords = st.totalRecords) ∨
    (∃ s, st.objectStart = some s ∧
     (jsonArrayByteStep st i c).positions = st.positions ++ [s] ∧
     (jsonArrayByteStep st i c).objectStart = none ∧
     (jsonArrayByteStep st i c).totalRecords = st.totalRecords + 1) := by
  simp only [jsonArrayByteStep]
  by_cases e1 : st.escapeNext
  · rw [if_pos e1]
    exact Or.inl ⟨rfl, rfl, rfl⟩
  · rw [if_neg e1]
    by_cases e2 : c = '\\' ∧ st.inString
    · rw [if_pos e2]
      exact Or.inl ⟨rfl, rfl, rfl⟩
    · rw [if_neg e2]
      by_cases e3 : c = '"'
      · rw [if_pos e3]
        exact Or.inl ⟨rfl, rfl, rfl⟩
      · rw [if_neg e3]
        by_cases e4 : st.inString
        · rw [if_pos e4]
          exact Or.inl ⟨rfl, rfl, rfl⟩
        · rw [if_neg e4]
          by_cases e5 : c = braceOpen
          · rw [if_pos e5]
            by_cases e6 : st.depth = 1
            · rw [if_pos e6]
              exact Or.inr (Or.inl ⟨rfl, rfl, rfl⟩)
            · rw [if_neg e6]
              split_ifs <;> exact Or.inl ⟨rfl, rfl, rfl⟩
          · rw [if_neg e5]
            by_cases e7 : c = braceClose
            · rw [if_pos e7]
              by_cases e8 : st.depth - 1 = 1 ∧ st.objectStart.isSome
              · rw [if_pos e8]
                obtain ⟨s, hs⟩ := Option.isSome_iff_exists.1 e8.2
                rcases hj : jsonParse (st.objectBuffer ++ [braceClose]) with _ | v
                · exact Or.inr (Or.inr (Or.inl ⟨rfl, rfl, rfl⟩))
                · cases v with
                  | obj fs =>
                    refine Or.inr (Or.inr (Or.inr ⟨s, hs, ?_, ?_, ?_⟩)) <;>
                      by_cases e9 : st.isFirstRecord = true <;> simp [e9, hs]
                  | null => exact Or.inr (Or.inr (Or.inl ⟨rfl, rfl, rfl⟩))
                  | bool b => exact Or.inr (Or.inr (Or.inl ⟨rfl, rfl, rfl⟩))
                  | num n => exact Or.inr (Or.inr (Or.inl ⟨rfl, rfl, rfl⟩))
                  | str s2 => exact Or.inr (Or.inr (Or.inl ⟨rfl, rfl, rfl⟩))
                  | arr a => exact Or.inr (Or.inr (Or.inl ⟨rfl, rfl, rfl⟩))
              · rw [if_neg e8]
                split_ifs <;> exact Or.inl ⟨rfl, rfl, rfl⟩
            · rw [if_neg e7]
              split_ifs <;> exact Or.inl ⟨rfl, rfl, rfl⟩

theorem jsonArrayScanAux_inv (data : List Char) :
    ∀ (i : Nat) (st : JsonArrayState),
      List.Pairwise (· < ·) st.positions →
      (∀ p ∈ st.positions, p < i) →
      (∀ s, st.objectStart = some s → s < i ∧ ∀ p ∈ st.positions, p < s) →
      st.totalRecords = st.positions.length →
      List.Pairwise (· < ·) (jsonArrayScanAux data i st).positions ∧
      (∀ p ∈ (jsonArrayScanAux data i st).positions, p < i + data.length) ∧
      (jsonArrayScanAux data i st).totalRecords =
        (jsonArrayScanAux data i st).positions.length := by
  induction data with
  | nil =>
    intro i st h1 h2 _ h4
    simp only [jsonArrayScanAux]
    exact ⟨h1, fun p hp => lt_of_lt_of_le (h2 p hp) (by omega), h4⟩
  | cons c rest ih =>
    intro i st h1 h2 h3 h4
    simp only [jsonArrayScanAux]
    have hlen : i + 1 + rest.length = i + (c :: rest).length := by
      simp only [List.length_cons]
      omega
    rcases jsonArrayByteStep_shape st i c with ⟨q1, q2, q3⟩ | ⟨q1, q2, q3⟩ |
      ⟨q1, q2, q3⟩ | ⟨s, hs, q1, q2, q3⟩
    · have := ih (i + 1) (jsonArrayByteStep st i c) (q1 ▸ h1)
        (fun p hp => lt_of_lt_of_le (h2 p (q1 ▸ hp)) (by omega))
        (fun s hs => by
          rw [q2] at hs
          obtain ⟨w1, w2⟩ := h3 s hs
          exact ⟨by omega, fun p hp => w2 p (q1 ▸ hp)⟩)
        (by rw [q3, q1, h4])
      exact ⟨this.1, fun p hp => hlen ▸ this.2.1 p hp, this.2.2⟩
    · have := ih (i + 1) (jsonArrayByteStep st i c) (q1 ▸ h1)
        (fun p hp => lt_of_lt_of_le (h2 p (q1 ▸ hp)) (by omega))
        (fun s hs => by
          rw [q2] at hs
          rcases Option.some.inj hs with rfl
          exact ⟨by omega, fun p hp => h2 p (q1 ▸ hp)⟩)
        (by rw [q3, q1, h4])
      exact ⟨this.1, fun p hp => hlen ▸ this.2.1 p hp, this.2.2⟩
    · have := ih (i + 1) (jsonArrayByteStep st i c) (q1 ▸ h1)
        (fun p hp => lt_of_lt_of_le (h2 p (q1 ▸ hp)) (by omega))
        (fun s hs => absurd (q2 ▸ hs) (by simp))
        (by rw [q3, q1, h4])
      exact ⟨this.1, fun p hp => hlen ▸ this.2.1 p hp, this.2.2⟩
    · obtain ⟨w1, w2⟩ := h3 s hs
      have := ih (i + 1) (jsonArrayByteStep st i c) ?_ ?_ ?_ ?_
      · exact ⟨this.1, fun p hp => hlen ▸ this.2.1 p hp, this.2.2⟩
      · rw [q1]
        refine List.pairwise_append.2 ⟨h1, List.pairwise_singleton _ _, ?_⟩
        intro a ha b hb
        rcases List.mem_singleton.1 hb with rfl
        exact w2 a ha
      · intro p hp
        rw [q1] at hp
        rcases List.mem_append.1 hp with h | h
        · exact lt_of_lt_of_le (h2 p h) (by omega)
        · rcases List.mem_singleton.1 h with rfl
          omega
      · intro s2 hs2
        rw [q2] at hs2
        exact absurd hs2 (Option.noConfusion)
      · rw [q3, q1, h4]
        simp

/-!
## Per-format position-table invariants
-/

theorem writePosBuffer_length (l : List Nat) : (writePosBuffer l).length = 6 * l.length := by
  induction l with
  | nil => rfl
  | cons p rest ih =>
    simp only [writePosBuffer, List.flatMap_cons] at ih ⊢
    simp only [List.length_append, List.length_cons]
    simp only [ih, encodePos48, List.length_cons, List.length_nil]
    omega

theorem indexCSVRun_inv (data : List Char) (r : IndexResult) (h : indexCSVRun data = some r) :
    List.Pairwise (· < ·) r.positions ∧ (∀ p ∈ r.positions, p < data.length) ∧
    r.positions.length = r.totalRecords := by
  simp only [indexCSVRun] at h
  split at h
  case isTrue hleft =>
    rcases Option.some.inj h with rfl
    obtain ⟨hpos, htot⟩ := csvScan_result (detectDelimiter (csvFirstLine data)) (scanLines data).events
    obtain ⟨hpw, hbd⟩ := scanLines_starts data
    simp only [hpos, htot]
    refine ⟨?_, ?_, by simp⟩
    · have hsub : List.Sublist ((scanLines data).events.tail.map Prod.fst)
          ((scanLines data).events.map Prod.fst) :=
        (List.tail_sublist _).map Prod.fst
      exact List.Pairwise.sublist hsub hpw
    · intro p hp
      rcases List.mem_map.1 hp with ⟨e, he, rfl⟩
      exact hbd e (List.mem_of_mem_tail he)
  case isFalse => exact absurd h (by simp)

theorem indexNDJSONRun_inv (data : List Char) (r : IndexResult)
    (h : indexNDJSONRun data = some r) :
    List.Pairwise (· < ·) r.positions ∧ (∀ p ∈ r.positions, p < data.length) ∧
    r.positions.length = r.totalRecords := by
  simp only [indexNDJSONRun] at h
  split at h
  case isTrue hleft =>
    rcases Option.some.inj h with rfl
    obtain ⟨hpos, htot⟩ := ndjsonFold_result (scanLines data).events ndjsonInit
    obtain ⟨hpw, hbd⟩ := scanLines_starts data
    simp only [hpos, htot, ndjsonInit] at *
    refine ⟨?_, ?_, by simp⟩
    · have hsub : List.Sublist (((scanLines data).events.filter fun ev => ndjsonAccepts ev.2).map Prod.fst)
          ((scanLines data).events.map Prod.fst) :=
        (List.filter_sublist _).map Prod.fst
      exact List.Pairwise.sublist hsub hpw
    · intro p hp
      simp only [List.nil_append] at hp
      rcases List.mem_map.1 hp with ⟨e, he, rfl⟩
      exact hbd e (List.mem_of_mem_filter he)
  case isFalse => exact absurd h (by simp)

theorem indexVCFRun_inv (data : List Char) (r : IndexResult) (h : indexVCFRun data = some r) :
    List.Pairwise (· < ·) r.positions ∧ (∀ p ∈ r.positions, p < data.length) ∧
    r.positions.length = r.totalRecords := by
  simp only [indexVCFRun] at h
  split at h
  case isTrue hleft =>
    rcases Option.some.inj h with rfl
    obtain ⟨hpw0, hbd0⟩ := scanLines_starts data
    have hpw : List.Pairwise (fun a b : Nat × List Char => a.1 < b.1)
        (scanLines data).events := (scanLines_inv data).1
    have := vcfFold_inv (scanLines data).events vcfInit data.length hpw hbd0
      (by simp [vcfInit]) (by simp [vcfInit]) (by simp [vcfInit])
      (by intro s hs; exact absurd hs (by simp [vcfInit])) (by simp [vcfInit])
    exact ⟨this.1, this.2.1, this.2.2.symm⟩
  case isFalse => exact absurd h (by simp)

theorem indexJSONArrayRun_inv (data : List Char) (r : IndexResult)
    (h : indexJSONArrayRun data = r) :
    List.Pairwise (· < ·) r.positions ∧ (∀ p ∈ r.positions, p < data.length) ∧
    r.positions.length = r.totalRecords := by
  rcases h with rfl
  simp only [indexJSONArrayRun]
  have := jsonArrayScanAux_inv data 0 jaInit (by simp [jaInit]) (by simp [jaInit])
    (by intro s hs; exact absurd hs (by simp [jaInit])) (by simp [jaInit])
  exact ⟨this.1, by simpa using this.2.1, this.2.2.symm⟩

/-!
## Claim theorems
-/

/-- C4: for every source file whose indexing completes (any of the four
formats), the produced position table has exactly `total_records` entries
(the binary table is `6 * total_records` bytes), the entries are strictly
increasing, and each entry is strictly less than the source's byte size. -/
theorem position_table_invariants (data : List Char) (r : IndexResult)
    (h : indexCSVRun data = some r ∨ indexNDJSONRun data = some r ∨
         indexVCFRun data = some r ∨ indexJSONArrayRun data = r) :
    List.Pairwise (· < ·) r.positions ∧ (∀ p ∈ r.positions, p < data.length) ∧
    r.positions.length = r.totalRecords ∧
    (writePosBuffer r.positions).length = 6 * r.totalRecords := by
  have main : List.Pairwise (· < ·) r.positions ∧ (∀ p ∈ r.positions, p < data.length) ∧
      r.positions.length = r.totalRecords := by
    rcases h with h | h | h | h
    · exact indexCSVRun_inv data r h
    · exact indexNDJSONRun_inv data r h
    · exact indexVCFRun_inv data r h
    · exact indexJSONArrayRun_inv data r h
  refine ⟨main.1, main.2.1, main.2.2, ?_⟩
  rw [writePosBuffer_length, main.2.2]

theorem position_table_invariants_witness :
    ∃ r : IndexResult, indexCSVRun (lc "a,b\nx,y\n") = some r ∧
      List.Pairwise (· < ·) r.positions ∧
      (∀ p ∈ r.positions, p < (lc "a,b\nx,y\n").length) ∧
      r.positions.length = r.totalRecords ∧
      (writePosBuffer r.positions).length = 6 * r.totalRecords := by
  refine ⟨⟨[4], [lc "a", lc "b"], 1, 0, 0⟩, by decide, ?_⟩
  exact position_table_invariants (lc "a,b\nx,y\n") ⟨[4], [lc "a", lc "b"], 1, 0, 0⟩
    (Or.inl (by decide))

/-- C2: the worker defines `validateCSVLine` (which flags the second line of
`c2input` as malformed: unbalanced quote, 1 field instead of 2) but never
calls it: the completed CSV run still emits a position-table entry (offset 4)
for that malformed line, counts it in `total_records`, and reports zero
warnings and zero skipped lines. -/
theorem malformed_csv_line_is_indexed :
    validateCSVLine (lc "\"x") ',' 2 = false ∧
    indexCSVRun c2input = some ⟨[4], [lc "a", lc "b"], 1, 0, 0⟩ := by decide

/-- C3: on the spec's literal source (no trailing newline) the worker's chunk
loop never takes its break (`bytesRead == 0 && leftover.length == 0`): after
the first iteration the state is `c3stuck` (whole file read, the newline-less
last line `Jane,b@y` left over), and every further iteration reproduces it,
so indexing never completes and no run result exists.  (Had the loop
completed, the positions accumulated so far start `[11, …]`, not the claimed
`[10, 29]`: offset 10 is the header's own newline byte.) -/
theorem indexCSV_never_breaks_on_c3input :
    (∀ n : Nat, csvLoopIterN (detectDelimiter (csvFirstLine c3input)) c3input n
        ⟨0, [], csvInit⟩ ≠ none) ∧
    indexCSVRun c3input = none ∧
    csvLoopIterN (detectDelimiter (csvFirstLine c3input)) c3input 1 ⟨0, [], csvInit⟩ =
      some c3stuck ∧
    c3stuck.scan.positions = [11] := by
  have hdelim : detectDelimiter (csvFirstLine c3input) = ',' := by decide
  have h0 : csvLoopIter ',' c3input ⟨0, [], csvInit⟩ = some c3stuck := by decide
  have hfix : csvLoopIter ',' c3input c3stuck = some c3stuck := by decide
  have hstuck : ∀ n, csvLoopIterN ',' c3input n c3stuck = some c3stuck := by
    intro n
    induction n with
    | zero => rfl
    | succ n ihn =>
      simp only [csvLoopIterN, hfix, Option.some_bind]
      exact ihn
  refine ⟨?_, by decide, ?_, by decide⟩
  · intro n
    rw [hdelim]
    cases n with
    | zero => simp [csvLoopIterN]
    | succ n =>
      simp only [csvLoopIterN, h0, Option.some_bind]
      rw [hstuck n]
      simp
  · rw [hdelim]
    simp only [csvLoopIterN, h0, Option.some_bind]

theorem indexCSV_never_breaks_on_c3input_witness :
    csvLoopIterN (detectDelimiter (csvFirstLine c3input)) c3input 3 ⟨0, [], csvInit⟩ ≠ none :=
  indexCSV_never_breaks_on_c3input.1 3

/-- C1 counterexample: from a state in which `c1id` is fully indexed (all
four artifacts on disk, all three database row sets populated, id on the
recent list), `file:remove-recent` only empties the recent list — the
catalog, stats and search rows and every `{id}`-prefixed artifact survive,
and a subsequent `open_file_info` still reports `indexed = true`. -/
theorem forget_recent_leaves_artifacts :
    openFileInfoIndexed (removeRecentFile c1state c1id) c1id = true ∧
    (diskFilesWithId (removeRecentFile c1state c1id) c1id).length = 4 ∧
    c1id ∈ (removeRecentFile c1state c1id).dbCatalogIds ∧
    c1id ∈ (removeRecentFile c1state c1id).dbStatsIds ∧
    c1id ∈ (removeRecentFile c1state c1id).dbSearchIds ∧
    (removeRecentFile c1state c1id).recent = [] := by decide

/-- C1 amended: `forget_recent(id)` removes the id's entry from the recent
list and persists the list, and does nothing else: the index-directory files,
the catalog/stats/search rows and the `indexed` flag reported by
`open_file_info` are all unchanged. -/
theorem removeRecentFile_only_filters_recent (s : StoreState) (fileId : List Char) :
    (removeRecentFile s fileId).recent = s.recent.filter (fun f => f ≠ fileId) ∧
    (removeRecentFile s fileId).diskFiles = s.diskFiles ∧
    (removeRecentFile s fileId).dbCatalogIds = s.dbCatalogIds ∧
    (removeRecentFile s fileId).dbStatsIds = s.dbStatsIds ∧
    (removeRecentFile s fileId).dbSearchIds = s.dbSearchIds ∧
    openFileInfoIndexed (removeRecentFile s fileId) fileId = openFileInfoIndexed s fileId ∧
    diskFilesWithId (removeRecentFile s fileId) fileId = diskFilesWithId s fileId :=
  ⟨rfl, rfl, rfl, rfl, rfl, rfl, rfl⟩

theorem removeRecentFile_only_filters_recent_witness :
    (removeRecentFile c1state c1id).recent = c1state.recent.filter (fun f => f ≠ c1id) ∧
    (removeRecentFile c1state c1id).diskFiles = c1state.diskFiles ∧
    (removeRecentFile c1state c1id).dbCatalogIds = c1state.dbCatalogIds ∧
    (removeRecentFile c1state c1id).dbStatsIds = c1state.dbStatsIds ∧
    (removeRecentFile c1state c1id).dbSearchIds = c1state.dbSearchIds ∧
    openFileInfoIndexed (removeRecentFile c1state c1id) c1id = openFileInfoIndexed c1state c1id ∧
    diskFilesWithId (removeRecentFile c1state c1id) c1id = diskFilesWithId c1state c1id :=
  removeRecentFile_only_filters_recent c1state c1id

/-- C9 counterexample: on a file whose peek starts with a newline the code
hands the *whole* peek to `detectDelimiter` (`firstLineEnd > 0` fails), so
the two semicolons after the newline win, while the claimed rule (count in
the first logical line, which is empty) would default to comma. -/
theorem delimiter_uses_whole_peek_when_newline_first :
    detectDelimiter (csvFirstLine c9input) = ';' ∧
    detectDelimiter (specFirstLine c9input) = ',' ∧
    csvFirstLine c9input ≠ specFirstLine c9input := by decide

/-- C9 amended: the detected delimiter is the candidate with the highest
count — ties broken in the listed order `, ; \t |`, comma when all four
counts are zero — counted over the first logical line of the 4096-byte peek
*except* that when the peek's first newline is at offset 0 (or absent) the
whole peek is used. -/
theorem detectDelimiter_characterization :
    (∀ l : List Char, detectDelimiter l = detectDelimiterSpec l) ∧
    (∀ data : List Char, idxOfChar '\n' (data.take 4096) = some 0 →
      csvFirstLine data = data.take 4096) ∧
    (∀ data : List Char, ∀ i : Nat, idxOfChar '\n' (data.take 4096) = some i → 0 < i →
      csvFirstLine data = (data.take 4096).take i) := by
  refine ⟨?_, ?_, ?_⟩
  · intro l
    simp only [detectDelimiter, detectDelimiterSpec, delimiterCandidates, List.map,
      pickTopDelimiter]
    by_cases h21 : countChar ';' l > countChar ',' l
    · rw [if_pos h21]
      by_cases h32 : countChar '\t' l > countChar ';' l
      · rw [if_pos h32]
        by_cases h43 : countChar '|' l > countChar '\t' l
        · rw [if_pos h43]
          split_ifs <;> first | rfl | omega
        · rw [if_neg h43]
          split_ifs <;> first | rfl | omega
      · rw [if_neg h32]
        by_cases h42 : countChar '|' l > countChar ';' l
        · rw [if_pos h42]
          split_ifs <;> first | rfl | omega
        · rw [if_neg h42]
          split_ifs <;> first | rfl | omega
    · rw [if_neg h21]
      by_cases h31 : countChar '\t' l > countChar ',' l
      · rw [if_pos h31]
        by_cases h43 : countChar '|' l > countChar '\t' l
        · rw [if_pos h43]
          split_ifs <;> first | rfl | omega
        · rw [if_neg h43]
          split_ifs <;> first | rfl | omega
      · rw [if_neg h31]
        by_cases h41 : countChar '|' l > countChar ',' l
        · rw [if_pos h41]
          split_ifs <;> first | rfl | omega
        · rw [if_neg h41]
          split_ifs <;> first | rfl | omega
  · intro data h
    simp [csvFirstLine, h]
  · intro data i h hi
    simp [csvFirstLine, h, hi]

theorem detectDelimiter_characterization_witness :
    detectDelimiter (lc "a;b") = detectDelimiterSpec (lc "a;b") ∧
    csvFirstLine c9input = c9input.take 4096 ∧
    csvFirstLine (lc "x,y\nz") = ((lc "x,y\nz").take 4096).take 3 :=
  ⟨detectDelimiter_characterization.1 (lc "a;b"),
   detectDelimiter_characterization.2.1 c9input (by decide),
   detectDelimiter_characterization.2.2 (lc "x,y\nz") 3 (by decide) (by decide)⟩

/-- A global single-character replace with the empty replacement is exactly
character removal. -/
theorem replaceAllSubF_single_empty (ch : Char) :
    ∀ (l : List Char) (fuel : Nat), l.length < fuel →
      replaceAllSubF ch [] [] fuel l = l.filter (· ≠ ch) := by
  intro l
  induction l with
  | nil =>
    intro fuel hf
    cases fuel with
    | zero => omega
    | succ fuel => rfl
  | cons c rest ih =>
    intro fuel hf
    cases fuel with
    | zero => omega
    | succ fuel =>
      simp only [replaceAllSubF, List.isPrefixOf, List.filter_cons]
      by_cases h : ch = c
      · subst h
        rw [if_pos (by simp)]
        simp only [List.length_nil, List.drop_zero, List.nil_append]
        rw [ih fuel (by simp at hf; omega)]
        simp
      · rw [if_neg (by simp [h]), ih fuel (by simp at hf; omega)]
        simp [Ne.symm h]

theorem regexToLike_eq_amended (v : List Char) : regexToLike v = regexToLikeAmended v := by
  simp only [regexToLike, regexToLikeAmended, replaceAllSub]
  rw [replaceAllSubF_single_empty '^' _ _ (by omega),
    replaceAllSubF_single_empty '$' _ _ (by omega)]

/-- C5 counterexample: the code removes *every* `^` and `$` from a regex
value (`.replace(/\^/g, '')`), not just a leading `^` and a trailing `$` as
claimed: at the value `a^b` the code produces the pattern `%ab%`, the claimed
transformation produces `%a^b%`, and the two patterns match differently
against a column holding `a^b`. -/
theorem regexToLike_strips_inner_carets :
    regexToLike (lc "a^b") = lc "%ab%" ∧
    regexToLikeClaim (lc "a^b") = lc "%a^b%" ∧
    regexToLike (lc "a^b") ≠ regexToLikeClaim (lc "a^b") ∧
    likeMatch (regexToLike (lc "a^b")) (lc "a^b") = false ∧
    likeMatch (regexToLikeClaim (lc "a^b")) (lc "a^b") = true := by decide

/-- C5 amended: the operator switch maps `equals` to `= v`, `contains` to
`LIKE %v%`, `startsWith` to `LIKE v%`, `endsWith` to `LIKE %v`, `not` to
`IS NULL OR NOT LIKE %v%` (values lowercased), and `regex` to `LIKE` of the
lowered value with `.*`→`%`, `.`→`_`, *every* `^` and `$` removed, wrapped in
`%…%` when no wildcard remains; all conditions are ANDed.  Against the column
values alice/alicia/bob the match counts are 1, 2, 1, 1 and 2. -/
theorem search_operator_mapping :
    (∀ v : List Char, condForOperator (lc "equals") v = SqlCond.eqv (asciiLowerAll v)) ∧
    (∀ v : List Char, condForOperator (lc "contains") v =
      SqlCond.likePat (lc "%" ++ asciiLowerAll v ++ lc "%")) ∧
    (∀ v : List Char, condForOperator (lc "startsWith") v =
      SqlCond.likePat (asciiLowerAll v ++ lc "%")) ∧
    (∀ v : List Char, condForOperator (lc "endsWith") v =
      SqlCond.likePat (lc "%" ++ asciiLowerAll v)) ∧
    (∀ v : List Char, condForOperator (lc "not") v =
      SqlCond.isNullOrNotLike (lc "%" ++ asciiLowerAll v ++ lc "%")) ∧
    (∀ v : List Char, condForOperator (lc "regex") v =
      SqlCond.likePat (regexToLikeAmended v)) ∧
    (searchTotalOneField aliceRows (lc "equals") (lc "alice") = 1 ∧
     searchTotalOneField aliceRows (lc "startsWith") (lc "ali") = 2 ∧
     searchTotalOneField aliceRows (lc "endsWith") (lc "ce") = 1 ∧
     searchTotalOneField aliceRows (lc "not") (lc "ali") = 1 ∧
     searchTotalOneField aliceRows (lc "regex") (lc "^ali.*") = 2) := by
  refine ⟨?_, ?_, ?_, ?_, ?_, ?_, by decide⟩
  · intro v
    simp only [condForOperator, eq_self_iff_true, if_true]
  · intro v
    simp only [condForOperator, eq_self_iff_true, if_true]
    rw [if_neg (by decide), if_neg (by decide), if_neg (by decide), if_neg (by decide),
      if_neg (by decide)]
  · intro v
    simp only [condForOperator, eq_self_iff_true, if_true]
    rw [if_neg (by decide)]
  · intro v
    simp only [condForOperator, eq_self_iff_true, if_true]
    rw [if_neg (by decide), if_neg (by decide)]
  · intro v
    simp only [condForOperator, eq_self_iff_true, if_true]
    rw [if_neg (by decide), if_neg (by decide), if_neg (by decide)]
  · intro v
    simp only [condForOperator, eq_self_iff_true, if_true]
    rw [if_neg (by decide), if_neg (by decide), if_neg (by decide), if_neg (by decide),
      regexToLike_eq_amended]

theorem search_operator_mapping_witness :
    condForOperator (lc "equals") (lc "Alice") = SqlCond.eqv (asciiLowerAll (lc "Alice")) ∧
    condForOperator (lc "regex") (lc "^ali.*") =
      SqlCond.likePat (regexToLikeAmended (lc "^ali.*")) :=
  ⟨search_operator_mapping.1 (lc "Alice"),
   search_operator_mapping.2.2.2.2.2.1 (lc "^ali.*")⟩

/-- Keys after a JS object assignment: each key of the result is an existing
key or the assigned one (also with duplicate declared names, where the
assignment overwrites in place). -/
theorem recordSet_keys_subset (k : List Char) (v : Json) (r : RecordMap) :
    ∀ x ∈ (recordSet k v r).map Prod.fst, x ∈ r.map Prod.fst ∨ x = k := by
  induction r with
  | nil =>
    intro x hx
    simp only [recordSet, List.map_cons, List.map_nil, List.mem_singleton] at hx
    exact Or.inr hx
  | cons kv rest ih =>
    obtain ⟨k2, v2⟩ := kv
    intro x hx
    simp only [recordSet] at hx
    by_cases hkey : k2 = k
    · rw [if_pos hkey] at hx
      simp only [List.map_cons, List.mem_cons] at hx
      simp only [List.map_cons]
      rcases hx with rfl | hx
      · exact Or.inl (List.mem_cons_self _ _)
      · exact Or.inl (List.mem_cons_of_mem _ hx)
    · rw [if_neg hkey] at hx
      simp only [List.map_cons, List.mem_cons] at hx
      simp only [List.map_cons]
      rcases hx with rfl | hx
      · exact Or.inl (List.mem_cons_self _ _)
      · rcases ih x hx with h | h
        · exact Or.inl (List.mem_cons_of_mem _ h)
        · exact Or.inr h

/-- A JS object assignment never removes a key. -/
theorem recordSet_keys_mono (k : List Char) (v : Json) (r : RecordMap) :
    ∀ x ∈ r.map Prod.fst, x ∈ (recordSet k v r).map Prod.fst := by
  induction r with
  | nil =>
    intro x hx
    simp at hx
  | cons kv rest ih =>
    obtain ⟨k2, v2⟩ := kv
    intro x hx
    simp only [List.map_cons, List.mem_cons] at hx
    simp only [recordSet]
    by_cases hkey : k2 = k
    · rw [if_pos hkey]
      simp only [List.map_cons, List.mem_cons]
      exact hx
    · rw [if_neg hkey]
      simp only [List.map_cons, List.mem_cons]
      rcases hx with rfl | hx
      · exact Or.inl rfl
      · exact Or.inr (ih x hx)

/-- After assigning `k`, the key `k` is present. -/
theorem recordSet_key_mem (k : List Char) (v : Json) (r : RecordMap) :
    k ∈ (recordSet k v r).map Prod.fst := by
  induction r with
  | nil =>
    simp only [recordSet, List.map_cons, List.map_nil]
    exact List.mem_cons_self _ _
  | cons kv rest ih =>
    obtain ⟨k2, v2⟩ := kv
    simp only [recordSet]
    by_cases hkey : k2 = k
    · rw [if_pos hkey]
      subst hkey
      simp only [List.map_cons]
      exact List.mem_cons_self _ _
    · rw [if_neg hkey]
      simp only [List.map_cons, List.mem_cons]
      exact Or.inr ih

theorem csvFold_keys_subset (values : List (List Char)) (l : List (Nat × List Char)) :
    ∀ (record : RecordMap),
      ∀ x ∈ (l.foldl (fun record (icol : Nat × List Char) =>
          recordSet icol.2 (Json.str (values.getD icol.1 [])) record) record).map Prod.fst,
        x ∈ record.map Prod.fst ∨ x ∈ l.map Prod.snd := by
  induction l with
  | nil =>
    intro record x hx
    exact Or.inl hx
  | cons icol rest ih =>
    intro record x hx
    simp only [List.foldl_cons] at hx
    rcases ih _ x hx with h | h
    · rcases recordSet_keys_subset _ _ _ x h with h2 | h2
      · exact Or.inl h2
      · refine Or.inr ?_
        simp only [List.map_cons]
        exact h2 ▸ List.mem_cons_self _ _
    · refine Or.inr ?_
      simp only [List.map_cons]
      exact List.mem_cons_of_mem _ h

theorem csvFold_keys_mono (values : List (List Char)) (l : List (Nat × List Char)) :
    ∀ (record : RecordMap), ∀ x ∈ record.map Prod.fst,
      x ∈ (l.foldl (fun record (icol : Nat × List Char) =>
        recordSet icol.2 (Json.str (values.getD icol.1 [])) record) record).map Prod.fst := by
  induction l with
  | nil =>
    intro record x hx
    exact hx
  | cons icol rest ih =>
    intro record x hx
    simp only [List.foldl_cons]
    exact ih _ x (recordSet_keys_mono _ _ _ x hx)

theorem csvFold_keys_complete (values : List (List Char)) (l : List (Nat × List Char)) :
    ∀ (record : RecordMap), ∀ c ∈ l.map Prod.snd,
      c ∈ (l.foldl (fun record (icol : Nat × List Char) =>
        recordSet icol.2 (Json.str (values.getD icol.1 [])) record) record).map Prod.fst := by
  induction l with
  | nil =>
    intro record c hc
    simp at hc
  | cons icol rest ih =>
    intro record c hc
    simp only [List.map_cons, List.mem_cons] at hc
    simp only [List.foldl_cons]
    rcases hc with rfl | hc
    · exact csvFold_keys_mono values rest _ _ (recordSet_key_mem _ _ _)
    · exact ih _ c hc

/-- Every key the CSV zip produces is a declared column (no distinctness of
the declared names needed). -/
theorem csvZipRecord_keys_subset (cols values : List (List Char)) :
    ∀ x ∈ (csvZipRecord cols values).map Prod.fst, x ∈ cols := by
  intro x hx
  simp only [csvZipRecord] at hx
  rcases csvFold_keys_subset values cols.enum [] x hx with h | h
  · simp at h
  · simpa [List.enum_map_snd] using h

/-- Every declared column occurs as a key of the CSV zip. -/
theorem csvZipRecord_keys_complete (cols values : List (List Char)) :
    ∀ c ∈ cols, c ∈ (csvZipRecord cols values).map Prod.fst := by
  intro c hc
  simp only [csvZipRecord]
  exact csvFold_keys_complete values cols.enum [] c (by simpa [List.enum_map_snd] using hc)

/-- The CSV zip is non-empty whenever a column is declared. -/
theorem csvZipRecord_ne_nil (cols values : List (List Char)) (h : cols ≠ []) :
    csvZipRecord cols values ≠ [] := by
  intro habs
  obtain ⟨c, hc⟩ := List.exists_mem_of_ne_nil _ h
  have hmem := csvZipRecord_keys_complete cols values c hc
  rw [habs] at hmem
  simp at hmem

/-- C6 counterexample: the NDJSON reader decodes the stored line itself and
returns *all* of its primitive keys: on `c6input` the declared columns are
`["a"]` (fixed by the first record), yet `get_record` of row 1 returns the
keys `a` and `b` — the key `b`, introduced only by the second record, is not
a subset member of the catalog's columns. -/
theorem ndjson_reader_returns_later_keys :
    (indexNDJSONRun c6input).map IndexResult.columns = some [lc "a"] ∧
    (indexNDJSONRun c6input).map IndexResult.positions = some [0, 8] ∧
    (indexNDJSONRun c6input).map IndexResult.totalRecords = some 2 ∧
    (getRecord [] c6input (writePosBuffer [0, 8]) 1 c6meta).toOption.map
      (fun r => r.map Prod.fst) = some [lc "a", lc "b"] ∧
    lc "b" ∉ [lc "a"] := by decide

/-- C6 amended: for CSV files the reader zips the stored line with the
declared columns (`record[col] = values[i] || ''`), so whenever `get_record`
succeeds every key of the returned map is one of `catalog(f).columns` — the
claim's subset property — and conversely every declared column occurs as a
key (duplicate declared names collapse into one key, the JS object
assignment overwriting in place), so the map is non-empty whenever at least
one column is declared; for the other formats the keys come from the decoded
record itself, so keys introduced by later records *are* returned for those
records (see the counterexample). -/
theorem csv_get_record_keys (file : List Char) (posBuf : List Nat) (index : Nat)
    (meta : IndexMeta) (r : RecordMap)
    (hcsv : meta.fileType = lc "csv")
    (h : getRecord [] file posBuf index meta = Except.ok r) :
    (∀ k ∈ r.map Prod.fst, k ∈ meta.columns) ∧
    (∀ c ∈ meta.columns, c ∈ r.map Prod.fst) ∧
    (meta.columns ≠ [] → r ≠ []) := by
  simp only [getRecord, readRecordAt, cacheLookup] at h
  rcases h1 : readUIntLE posBuf (index * 6) 6 with e | pos
  · rw [h1] at h
    exact absurd h (by simp)
  · rw [h1] at h
    dsimp only at h
    rcases h2 : (if index + 1 < meta.totalRecords then readUIntLE posBuf ((index + 1) * 6) 6
                 else Except.ok (pos + 16384)) with e | nextPos
    · rw [h2] at h
      exact absurd h (by simp)
    · rw [h2] at h
      simp only [decodeRecord, if_pos hcsv] at h
      rw [Except.ok.injEq] at h
      rw [← h]
      exact ⟨fun k hk => csvZipRecord_keys_subset _ _ k hk,
             fun c hc => csvZipRecord_keys_complete _ _ c hc,
             fun hne => csvZipRecord_ne_nil _ _ hne⟩

theorem csv_get_record_keys_witness :
    ((∀ k ∈ ([(lc "a", Json.str (lc "x")), (lc "b", Json.str (lc "y"))] : RecordMap).map Prod.fst,
        k ∈ [lc "a", lc "b"]) ∧
     (∀ c ∈ [lc "a", lc "b"],
        c ∈ ([(lc "a", Json.str (lc "x")),
              (lc "b", Json.str (lc "y"))] : RecordMap).map Prod.fst) ∧
     ([lc "a", lc "b"] ≠ ([] : List (List Char)) →
        ([(lc "a", Json.str (lc "x")), (lc "b", Json.str (lc "y"))] : RecordMap) ≠ [])) ∧
    ((∀ k ∈ ([(lc "id", Json.str (lc "2"))] : RecordMap).map Prod.fst,
        k ∈ [lc "id", lc "id"]) ∧
     (∀ c ∈ [lc "id", lc "id"],
        c ∈ ([(lc "id", Json.str (lc "2"))] : RecordMap).map Prod.fst) ∧
     ([lc "id", lc "id"] ≠ ([] : List (List Char)) →
        ([(lc "id", Json.str (lc "2"))] : RecordMap) ≠ [])) :=
  ⟨csv_get_record_keys (lc "a,b\nx,y\n") (writePosBuffer [4]) 0
      ⟨lc "f", lc "csv", some (lc "csv"), some ',', [lc "a", lc "b"], 1⟩
      [(lc "a", Json.str (lc "x")), (lc "b", Json.str (lc "y"))] rfl rfl,
   csv_get_record_keys (lc "id,id\n1,2\n") (writePosBuffer [6]) 0
      ⟨lc "g", lc "csv", some (lc "csv"), some ',', [lc "id", lc "id"], 1⟩
      [(lc "id", Json.str (lc "2"))] rfl rfl⟩

/-- Parse steps leave the job's disk and database untouched. -/
theorem foldl_parse_steps (fileId : List Char) (s : JobState) (k : Nat) :
    (List.replicate k WorkerStep.parseChunk).foldl (applyWorkerStep fileId) s = s := by
  induction k with
  | zero => rfl
  | succ k ih =>
    simp only [List.replicate, List.foldl_cons]
    exact ih

/-- C7: cancellation at any chunk boundary of the worker's loop leaves no
`{id}` artifact on disk (in particular no partial position-table file and no
visible catalog entry), no secondary-index rows for the id, and the terminal
status event is `cancelled` — the worker writes only in `writeIndexFiles`,
which runs strictly after the whole parse loop, and no database writes
happen during the job at all. -/
theorem cancel_leaves_no_artifacts (fileId data : List Char) (k : Nat)
    (hk : k ≤ chunkCountOf data) :
    (cancelRun fileId data k).disk = [] ∧
    (cancelRun fileId data k).dbSearchIds = [] ∧
    jobCatalogVisible fileId (cancelRun fileId data k) = false ∧
    (cancelRun fileId data k).statusEvents.getLast? = some JobStatus.cancelled := by
  have htake : (workerSteps data).take k = List.replicate k WorkerStep.parseChunk := by
    simp only [workerSteps]
    rw [List.take_append_of_le_length (by simpa using hk), List.take_replicate,
      Nat.min_eq_left hk]
  simp [cancelRun, htake, foldl_parse_steps, jobStart, jobCatalogVisible]

theorem cancel_leaves_no_artifacts_witness :
    (cancelRun (lc "f1") (lc "ab") 1).disk = [] ∧
    (cancelRun (lc "f1") (lc "ab") 1).dbSearchIds = [] ∧
    jobCatalogVisible (lc "f1") (cancelRun (lc "f1") (lc "ab") 1) = false ∧
    (cancelRun (lc "f1") (lc "ab") 1).statusEvents.getLast? = some JobStatus.cancelled :=
  cancel_leaves_no_artifacts (lc "f1") (lc "ab") 1 (by decide)

/-- C8 counterexample: both unfolding paths drop the continuation line's
leading whitespace character (`/\r?\n[ \t]/` removal in the reader,
`line.slice(1)` in the indexer), so `FN` decodes to `"AlPha"` — not the
claimed `"Al Pha"` — and `get_record`'s map has no `_index` key (only the
`page`/`search` paths add `_index`). -/
theorem vcard_fold_drops_whitespace :
    (getRecord [] c8input (writePosBuffer [0]) 0 c8meta).toOption.bind
      (recordGetStr (lc "FN")) = some (lc "AlPha") ∧
    some (lc "AlPha") ≠ some (lc "Al Pha") ∧
    (getRecord [] c8input (writePosBuffer [0]) 0 c8meta).toOption.map
      (fun r => r.map Prod.fst) = some [lc "FN", lc "EMAIL"] ∧
    lc "_index" ∉ [lc "FN", lc "EMAIL"] := by decide

/-- C8 amended: the vCard source indexes to `total_records = 1` and
`get_record` of row 0 returns `{FN: "AlPha", EMAIL: "a@x, b@y"}` (no
`_index` key): a continuation line is appended to the previous property's
value with its one leading space/tab consumed, repeated `EMAIL`/`TEL`
values accumulate joined by `", "`, and for every other property the first
occurrence wins. -/
theorem vcard_record_results :
    indexVCFRun c8input = some ⟨[0], vcfCanonicalHeaders, 1, 0, 0⟩ ∧
    (getRecord [] c8input (writePosBuffer [0]) 0 c8meta).toOption.map
      (fun r => r.map Prod.fst) = some [lc "FN", lc "EMAIL"] ∧
    (getRecord [] c8input (writePosBuffer [0]) 0 c8meta).toOption.bind
      (recordGetStr (lc "FN")) = some (lc "AlPha") ∧
    (getRecord [] c8input (writePosBuffer [0]) 0 c8meta).toOption.bind
      (recordGetStr (lc "EMAIL")) = some (lc "a@x, b@y") ∧
    parseVCard (lc "BEGIN:VCARD\nORG:X\nORG:Y\nEND:VCARD") = [(lc "ORG", lc "X")] ∧
    parseVCard (lc "BEGIN:VCARD\nTEL:1\nTEL:2\nEND:VCARD") = [(lc "TEL", lc "1, 2")] ∧
    (∀ (st : VcfState) (ev : Nat × List Char),
      st.currentStart ≠ none →
      (ev.2.head? = some ' ' ∨ ev.2.head? = some '\t') →
      st.lastKey ≠ [] →
      vcfTruthy (assocGet st.lastKey st.current) = true →
      (vcfLineStep st ev).current =
        assocSet st.lastKey ((assocGet st.lastKey st.current).getD [] ++ ev.2.drop 1)
          st.current) := by
  refine ⟨by decide, by decide, by decide, by decide, by decide, by decide, ?_⟩
  intro st ev h1 h2 h3 h4
  simp only [vcfLineStep]
  rw [if_pos ⟨h1, h2⟩, if_pos ⟨h3, h4⟩]

theorem vcard_record_results_witness :
    (vcfLineStep ⟨some 0, [(lc "FN", lc "Al")], lc "FN", [], 0⟩ (12, lc " Pha")).current =
      assocSet (lc "FN")
        ((assocGet (lc "FN") [(lc "FN", lc "Al")]).getD [] ++ (lc " Pha").drop 1)
        [(lc "FN", lc "Al")] :=
  vcard_record_results.2.2.2.2.2.2 ⟨some 0, [(lc "FN", lc "Al")], lc "FN", [], 0⟩
    (12, lc " Pha") (by decide) (by decide) (by decide) (by decide)

/-- C10: the position table written for a file is exactly
`6 * total_records` bytes, and `readRecordAt` performs the
`positions.readUIntLE(index * 6, 6)` lookup before its `try` block; for any
row index at or beyond `total_records` the bounds check
`offset + 6 ≤ length` fails, the `RangeError` propagates, and the
`data:record` handler returns an `{error: …}` response rather than a record
map (assuming, as the code guarantees, that no out-of-range key was ever
cached). -/
theorem out_of_range_get_record_errors (cache : List ((List Char × Nat) × RecordMap))
    (file : List Char) (posBuf : List Nat) (index : Nat) (meta : IndexMeta)
    (hbuf : posBuf.length = 6 * meta.totalRecords)
    (hidx : meta.totalRecords ≤ index)
    (hcache : cacheLookup (meta.fileId, index) cache = none) :
    ∃ e, dataRecordHandler cache file posBuf index meta = IpcResponse.err e := by
  have hoob : ¬ (index * 6 + 6 ≤ posBuf.length) := by
    rw [hbuf]
    omega
  simp only [dataRecordHandler, getRecord, readRecordAt, hcache, readUIntLE, if_neg hoob,
    safeHandler]
  exact ⟨_, rfl⟩

theorem out_of_range_get_record_errors_witness :
    ∃ e, dataRecordHandler [] (lc "x") (writePosBuffer [0]) 1
      ⟨lc "f", lc "csv", some (lc "csv"), some ',', [lc "a"], 1⟩ = IpcResponse.err e :=
  out_of_range_get_record_errors [] (lc "x") (writePosBuffer [0]) 1
    ⟨lc "f", lc "csv", some (lc "csv"), some ',', [lc "a"], 1⟩
    (by decide) (by decide) rfl

end BR
